import Mathlib

/-!
# Buffered-UART receive ring buffer

A shallow embedding of the interrupt-driven receive path of
`LPC-P1343_Examples/05-UART-Serial-Communication/Buffered-UART/main.c`.

Machine integers are natural numbers with the wrap of their C type written
out: `uint8_t` values are taken `% 256`, `uint16_t` values `% 65536`,
`uint32_t` values `% 4294967296`.  The ring-buffer capacity `RX_BUF_SIZE`
is a compile-time constant of the source (64); the operations take it as
the parameter `cap` (at least 1, as a C array length is) so that they can
be studied at other capacities too.  An array access outside the array,
undefined in C, reads 0 and writes nothing here; the contract theorems
that speak of an element assume the index inside the array.
-/

namespace BufferedUART

/-- The capacity constant of the source: `#define RX_BUF_SIZE 64`. -/
def RX_BUF_SIZE : Nat := 64

/-- The module-level variables of the ring buffer:
`rx_buffer[RX_BUF_SIZE]` (`uint8_t`), `rx_head`, `rx_tail` (`uint16_t`),
`rx_overrun`, `rx_total` (`uint32_t`). -/
structure RxState where
  rx_buffer : List Nat
  rx_head : Nat
  rx_tail : Nat
  rx_overrun : Nat
  rx_total : Nat
deriving DecidableEq, Repr

/-- The state at program start: the array is zero-initialised static
storage, every index and counter is initialised to 0. -/
def init (cap : Nat) : RxState :=
  { rx_buffer := List.replicate cap 0, rx_head := 0, rx_tail := 0,
    rx_overrun := 0, rx_total := 0 }

/-- The body of the `while (U0LSR & LSR_RDR)` loop of `UART0_IRQHandler`,
run for one received character; `u0rbr` is the value read from `U0RBR`.

    uint8_t c = U0RBR;
    uint16_t next_head = (rx_head + 1) & (RX_BUF_SIZE - 1);
    if (next_head != rx_tail) { rx_buffer[rx_head] = c; rx_head = next_head; }
    else { rx_overrun++; }
    rx_total++;
-/
def UART0_IRQHandler_step (cap : Nat) (s : RxState) (u0rbr : Nat) : RxState :=
  let c := u0rbr % 256
  let next_head := ((s.rx_head + 1) &&& (cap - 1)) % 65536
  let s1 : RxState :=
    if next_head ≠ s.rx_tail then
      { s with rx_buffer := s.rx_buffer.set s.rx_head c, rx_head := next_head }
    else
      { s with rx_overrun := (s.rx_overrun + 1) % 4294967296 }
  { s1 with rx_total := (s1.rx_total + 1) % 4294967296 }

/-- The function `uart_available`:
`return (rx_head - rx_tail) & (RX_BUF_SIZE - 1);`.
The operands are promoted to `int` (32 bits, two's complement), whose bit
pattern is `(rx_head + 2^32 - rx_tail) % 2^32`; the result is converted to
`uint16_t`. -/
def uart_available (cap : Nat) (s : RxState) : Nat :=
  (((s.rx_head + 4294967296 - s.rx_tail) % 4294967296) &&& (cap - 1)) % 65536

/-- The function `uart_read`: the returned `int16_t` and the state after
the call.

    if (rx_head == rx_tail) return -1;
    uint8_t c = rx_buffer[rx_tail];
    rx_tail = (rx_tail + 1) & (RX_BUF_SIZE - 1);
    return c;
-/
def uart_read (cap : Nat) (s : RxState) : Int × RxState :=
  if s.rx_head = s.rx_tail then
    (-1, s)
  else
    let c := s.rx_buffer.getD s.rx_tail 0
    (Int.ofNat c, { s with rx_tail := ((s.rx_tail + 1) &&& (cap - 1)) % 65536 })

/-- The function `uart_flush`: `rx_tail = rx_head;`. -/
def uart_flush (s : RxState) : RxState :=
  { s with rx_tail := s.rx_head }

/-- One operation on the ring buffer: a character arrives (the handler's
loop body runs with the given `U0RBR` value), the main loop calls
`uart_read`, or it calls `uart_flush`. -/
inductive Op where
  | push (u0rbr : Nat)
  | pop
  | flush
deriving DecidableEq, Repr

/-- The state after one operation. -/
def applyOp (cap : Nat) (s : RxState) : Op → RxState
  | Op.push c => UART0_IRQHandler_step cap s c
  | Op.pop => (uart_read cap s).2
  | Op.flush => uart_flush s

/-- The state after a sequence of operations, run left to right. -/
def exec (cap : Nat) : RxState → List Op → RxState
  | s, [] => s
  | s, op :: ops => exec cap (applyOp cap s op) ops

/-- The values returned by the `uart_read` calls of a sequence of
operations, in call order. -/
def reads (cap : Nat) : RxState → List Op → List Int
  | _, [] => []
  | s, Op.pop :: ops => (uart_read cap s).1 :: reads cap (applyOp cap s Op.pop) ops
  | s, op :: ops => reads cap (applyOp cap s op) ops

/-- A state is reachable when some sequence of pushes, pops and flushes
leads to it from the initial state. -/
def Reachable (cap : Nat) (s : RxState) : Prop :=
  ∃ ops : List Op, exec cap (init cap) ops = s

/-- The bytes handed to the buffer by the pushes of a sequence: each is the
`uint8_t` the handler makes of the `U0RBR` value. -/
def pushed : List Op → List Nat
  | [] => []
  | Op.push c :: ops => (c % 256) :: pushed ops
  | _ :: ops => pushed ops

/-- The number of `uart_read` calls in a sequence. -/
def popCount : List Op → Nat
  | [] => 0
  | Op.pop :: ops => popCount ops + 1
  | _ :: ops => popCount ops

/-- An interleaving of pushes and pops, started with `n` unread bytes, in
which the number of pushed-but-unread bytes never exceeds `cap - 1` and
every pop finds at least one unread byte.  Counted on the operations
alone, without looking at the buffer. -/
def Admissible (cap : Nat) : Nat → List Op → Prop
  | _, [] => True
  | n, Op.push _ :: ops => n + 1 ≤ cap - 1 ∧ Admissible cap (n + 1) ops
  | n, Op.pop :: ops => 0 < n ∧ Admissible cap (n - 1) ops
  | _, Op.flush :: _ => False

instance (cap : Nat) : (n : Nat) → (ops : List Op) → Decidable (Admissible cap n ops)
  | _, [] => isTrue trivial
  | n, Op.push _ :: ops =>
    have := instDecidableAdmissible cap (n + 1) ops
    by unfold Admissible; infer_instance
  | n, Op.pop :: ops =>
    have := instDecidableAdmissible cap (n - 1) ops
    by unfold Admissible; infer_instance
  | _, Op.flush :: _ => isFalse (fun h => h)

/-- Calling `uart_read` until it returns -1, at most `fuel` calls: the
values returned before the -1 and the state reached, or `none` when the
-1 has not come within `fuel` calls. -/
def drain (cap : Nat) : Nat → RxState → Option (List Int × RxState)
  | 0, _ => none
  | fuel + 1, s =>
    if (uart_read cap s).1 = -1 then
      some ([], (uart_read cap s).2)
    else
      match drain cap fuel (uart_read cap s).2 with
      | none => none
      | some (rs, t) => some ((uart_read cap s).1 :: rs, t)

/-- The ring-buffer state `s` holds exactly the unread bytes `q`, oldest
first: they sit in the slots `rx_tail`, `rx_tail + 1`, ... (indices taken
modulo `cap`) and `rx_head` is the slot after the last of them. -/
structure Holds (cap : Nat) (s : RxState) (q : List Nat) : Prop where
  len : s.rx_buffer.length = cap
  tail_lt : s.rx_tail < cap
  room : q.length < cap
  head_eq : s.rx_head = (s.rx_tail + q.length) % cap
  slots : ∀ i, i < q.length → s.rx_buffer.getD ((s.rx_tail + i) % cap) 0 = q.getD i 0

/-- A list queue that keeps at most `cap - 1` bytes: a push appends the
byte when there is room and drops it otherwise, a pop removes the oldest
byte, a flush empties the queue. -/
def queueOp (cap : Nat) (q : List Nat) : Op → List Nat
  | Op.push c => if q.length + 1 < cap then q ++ [c % 256] else q
  | Op.pop => q.tail
  | Op.flush => []

/-- The number of characters that arrive in a sequence of operations. -/
def pushCount : List Op → Nat
  | [] => 0
  | Op.push _ :: ops => pushCount ops + 1
  | _ :: ops => pushCount ops

/-- The number of arriving characters of a sequence, run from `s`, for which
the handler takes the storing branch `next_head != rx_tail`. -/
def storedCount (cap : Nat) : RxState → List Op → Nat
  | _, [] => 0
  | s, Op.push c :: ops =>
    (if ((s.rx_head + 1) &&& (cap - 1)) % 65536 ≠ s.rx_tail then 1 else 0) +
      storedCount cap (applyOp cap s (Op.push c)) ops
  | s, op :: ops => storedCount cap (applyOp cap s op) ops

/-- A call of the consumer interface made by the main loop. -/
inductive Call where
  | available
  | read
  | flush
deriving DecidableEq, Repr

/-- The value a consumer call returns (`none` for the `void` function
`uart_flush`) and the state after it.  `uart_available` has no assignment
in its body, so the state after it is the state before. -/
def call (cap : Nat) (s : RxState) : Call → Option Int × RxState
  | Call.available => (some (Int.ofNat (uart_available cap s)), s)
  | Call.read => (some (uart_read cap s).1, (uart_read cap s).2)
  | Call.flush => (none, uart_flush s)

/-- The handler's loop body with the array access checked: `none` when
`rx_buffer[rx_head] = c` would write outside the array (undefined in C),
the state after the body otherwise. -/
def UART0_IRQHandler_step_checked (cap : Nat) (s : RxState) (u0rbr : Nat) :
    Option RxState :=
  if ((s.rx_head + 1) &&& (cap - 1)) % 65536 ≠ s.rx_tail ∧
      ¬ s.rx_head < s.rx_buffer.length then
    none
  else
    some (UART0_IRQHandler_step cap s u0rbr)

/-- The function `uart_read` with the array access checked: `none` when
`rx_buffer[rx_tail]` would read outside the array, the result of the call
otherwise. -/
def uart_read_checked (cap : Nat) (s : RxState) : Option (Int × RxState) :=
  if s.rx_head ≠ s.rx_tail ∧ ¬ s.rx_tail < s.rx_buffer.length then
    none
  else
    some (uart_read cap s)

end BufferedUART

/-! # Millisecond tick service

The tick counter of `04-Timers-and-PWM/Timer-Delay/main.c` and of
`06-Interrupts-and-Clocks/SysTick-Blink/main.c`.  Both files declare
`volatile uint32_t ms_ticks = 0;` and define `get_ticks` and `delay_ms`
with the same bodies; they differ in the interrupt handler that counts the
ticks.  The counter is a natural number below `2^32`.
-/

namespace TickClock

/-- The subtraction of two `uint32_t` values, as in `ms_ticks - start`. -/
def sub_u32 (a b : Nat) : Nat :=
  (a + 4294967296 - b) % 4294967296

/-- The handler `SysTick_Handler` of SysTick-Blink: `ms_ticks++;`.
Takes `ms_ticks` and gives its new value. -/
def SysTick_Handler (ms_ticks : Nat) : Nat :=
  (ms_ticks + 1) % 4294967296

/-- The handler `CT32B0_IRQHandler` of Timer-Delay, run with the value
read from `TMR32B0IR`:

    if (TMR32B0IR & (1 << 0)) { TMR32B0IR = (1 << 0); ms_ticks++; }

Gives the value written to `TMR32B0IR` (if any) and the new `ms_ticks`. -/
def CT32B0_IRQHandler (tmr32b0ir : Nat) (ms_ticks : Nat) : Option Nat × Nat :=
  if tmr32b0ir &&& (1 <<< 0) ≠ 0 then
    (some (1 <<< 0), (ms_ticks + 1) % 4294967296)
  else
    (none, ms_ticks)

/-- The function `get_ticks`: `return ms_ticks;`.  Gives the returned value
and `ms_ticks` after the call. -/
def get_ticks (ms_ticks : Nat) : Nat × Nat :=
  (ms_ticks, ms_ticks)

/-- The function `timeout_elapsed` of SysTick-Blink:
`return (ms_ticks - start_time) >= timeout_ms;` as a `uint8_t`. -/
def timeout_elapsed (ms_ticks start_time timeout_ms : Nat) : Nat :=
  if sub_u32 ms_ticks start_time ≥ timeout_ms then 1 else 0

/-- The test of the non-blocking loop of Timer-Delay's `main`:
`(get_ticks() - last_toggle) >= 250`. -/
def toggle_due (ms_ticks last_toggle : Nat) : Bool :=
  decide (sub_u32 (get_ticks ms_ticks).1 last_toggle ≥ 250)

/-- The loop `while ((ms_ticks - start) < ms) { }` of `delay_ms`, with at
most `fuel` evaluations of its condition.  The condition is evaluated once
for every value of the counter; `source` gives the value `ms_ticks` has at
the next evaluation.  Gives the number of evaluations that found the
condition true and the value of `ms_ticks` at exit, or `none` when the
loop has not exited within `fuel` evaluations. -/
def delay_ms_loop (source : Nat → Nat) (start ms : Nat) : Nat → Nat → Option (Nat × Nat)
  | 0, _ => none
  | fuel + 1, ms_ticks =>
    if sub_u32 ms_ticks start < ms then
      match delay_ms_loop source start ms fuel (source ms_ticks) with
      | none => none
      | some (n, t) => some (n + 1, t)
    else
      some (0, ms_ticks)

/-- The function `delay_ms`:

    uint32_t start = ms_ticks;
    while ((ms_ticks - start) < ms) { }
-/
def delay_ms (source : Nat → Nat) (fuel : Nat) (ms_ticks : Nat) (ms : Nat) :
    Option (Nat × Nat) :=
  let start := ms_ticks
  delay_ms_loop source start ms fuel ms_ticks

/-- A tick source that fires the SysTick interrupt once between two
evaluations of the loop condition. -/
def systick_source (ms_ticks : Nat) : Nat :=
  SysTick_Handler ms_ticks

/-- A tick source that fires the CT32B0 interrupt, with the MR0 flag set,
once between two evaluations of the loop condition. -/
def ct32b0_source (ms_ticks : Nat) : Nat :=
  (CT32B0_IRQHandler 1 ms_ticks).2

/-- A tick source that has halted: `ms_ticks` never changes. -/
def halted_source (ms_ticks : Nat) : Nat :=
  ms_ticks

end TickClock

namespace BufferedUART

/-! ## The whole handler, preemption and the queue view -/

/-- Bit 0 of `U0IIR`: `#define IIR_PEND (1 << 0)` (0 = interrupt pending). -/
def IIR_PEND : Nat := 1 <<< 0

/-- The interrupt-identification field of `U0IIR`: `#define IIR_ID_MASK 0x0E`. -/
def IIR_ID_MASK : Nat := 0x0E

/-- Receive Data Available: `#define IIR_RDA 0x04`. -/
def IIR_RDA : Nat := 0x04

/-- Character Timeout Indicator: `#define IIR_CTI 0x0C`. -/
def IIR_CTI : Nat := 0x0C

/-- The loop `while (U0LSR & LSR_RDR) { ... }` of `UART0_IRQHandler`.  The
receive FIFO is the list of the values `U0RBR` will give, oldest first;
the data-ready flag `LSR_RDR` is set exactly while the list is not empty,
and every read of `U0RBR` takes the oldest value. -/
def rx_loop (cap : Nat) : RxState → List Nat → RxState
  | s, [] => s
  | s, u0rbr :: fifo => rx_loop cap (UART0_IRQHandler_step cap s u0rbr) fifo

/-- The handler `UART0_IRQHandler`, run with `iir` read from `U0IIR` and
the receive FIFO `fifo`:

    uint32_t iir = U0IIR;
    if (iir & IIR_PEND) return;
    uint32_t int_id = iir & IIR_ID_MASK;
    if (int_id == IIR_RDA || int_id == IIR_CTI) { while (U0LSR & LSR_RDR) { ... } }
-/
def UART0_IRQHandler (cap : Nat) (iir : Nat) (fifo : List Nat) (s : RxState) : RxState :=
  if iir &&& IIR_PEND ≠ 0 then
    s
  else
    let int_id := iir &&& IIR_ID_MASK
    if int_id = IIR_RDA ∨ int_id = IIR_CTI then
      rx_loop cap s fifo
    else
      s

/-- The two assignments of the storing branch of the handler, in source
order: the state after `rx_buffer[rx_head] = c;` and the state after the
following `rx_head = next_head;`. -/
def store_then_advance (s : RxState) (c next_head : Nat) : RxState × RxState :=
  let s1 : RxState := { s with rx_buffer := s.rx_buffer.set s.rx_head c }
  let s2 : RxState := { s1 with rx_head := next_head }
  (s1, s2)

/-- The receive interrupt fires in gap `k` of a consumer operation when
`k` is the chosen gap: the handler then runs to completion, pushing the
characters `cs`. -/
def irq_at (cap : Nat) (gap k : Nat) (cs : List Nat) (s : RxState) : RxState :=
  if gap = k then rx_loop cap s cs else s

/-- The function `uart_available` with one receive interrupt between its
two memory accesses, the reads of `rx_head` and `rx_tail` (C leaves their
order open: `head_first` chooses it).  Gives the returned value and the
state after the call. -/
def uart_available_preempted (cap : Nat) (head_first : Bool) (cs : List Nat)
    (s : RxState) : Nat × RxState :=
  let a := if head_first then s.rx_head else s.rx_tail
  let s1 := rx_loop cap s cs
  let b := if head_first then s1.rx_tail else s1.rx_head
  let h := if head_first then a else b
  let t := if head_first then b else a
  ((((h + 4294967296 - t) % 4294967296) &&& (cap - 1)) % 65536, s1)

/-- The function `uart_flush` with one receive interrupt between its two
memory accesses, the read of `rx_head` and the write of `rx_tail`. -/
def uart_flush_preempted (cap : Nat) (cs : List Nat) (s : RxState) : RxState :=
  let h := s.rx_head
  let s1 := rx_loop cap s cs
  { s1 with rx_tail := h }

/-- The function `uart_read` with one receive interrupt in one of the gaps
between its memory accesses:

    gap 1   between the two reads of the test `rx_head == rx_tail`
            (`head_first` chooses their order);
    gap 2   between the test and the read of `rx_tail` for the index;
    gap 3   between that read and the read of `rx_buffer[...]`;
    gap 4   between the read of the element and the read of `rx_tail` for
            the increment;
    gap 5   between that read and the write of `rx_tail`.

When the test finds the buffer empty the call returns before the gaps 2
to 5: the interrupt then fires after the call. -/
def uart_read_preempted (cap : Nat) (head_first : Bool) (gap : Nat) (cs : List Nat)
    (s : RxState) : Int × RxState :=
  let a := if head_first then s.rx_head else s.rx_tail
  let s1 := irq_at cap gap 1 cs s
  let b := if head_first then s1.rx_tail else s1.rx_head
  let h := if head_first then a else b
  let t := if head_first then b else a
  if h = t then
    (-1, if gap = 1 then s1 else rx_loop cap s1 cs)
  else
    let s2 := irq_at cap gap 2 cs s1
    let idx := s2.rx_tail
    let s3 := irq_at cap gap 3 cs s2
    let c := s3.rx_buffer.getD idx 0
    let s4 := irq_at cap gap 4 cs s3
    let t2 := s4.rx_tail
    let s5 := irq_at cap gap 5 cs s4
    (Int.ofNat c, { s5 with rx_tail := ((t2 + 1) &&& (cap - 1)) % 65536 })

/-- The values the pops of a sequence of operations return on the list
queue: the oldest byte, or -1 on the empty queue. -/
def queueReads (cap : Nat) : List Nat → List Op → List Int
  | _, [] => []
  | [], Op.pop :: ops => -1 :: queueReads cap [] ops
  | x :: q, Op.pop :: ops => Int.ofNat x :: queueReads cap q ops
  | q, op :: ops => queueReads cap (queueOp cap q op) ops

/-- The unread bytes of a state, oldest first:
`rx_buffer[(rx_tail + i) mod cap]` for `i` below `uart_available()`. -/
def contents (cap : Nat) (s : RxState) : List Nat :=
  (List.range (uart_available cap s)).map
    (fun i => s.rx_buffer.getD ((s.rx_tail + i) % cap) 0)

end BufferedUART

namespace BufferedUART

/-! ## Console session: transmit path, telemetry and the main loop -/

/-- The function `uart_putchar`: `while (!(U0LSR & LSR_THRE)); U0THR = c;`.
The transmitter is taken to become ready; `tx` is the log of the
characters written to `U0THR`, oldest first, and `c` is a `char`. -/
def uart_putchar (c : Nat) (tx : List Nat) : List Nat :=
  tx ++ [c % 256]

/-- The function `uart_puts`: `while (*s) uart_putchar(*s++);`, on the
array of characters `s`; it stops at the first NUL. -/
def uart_puts : List Nat → List Nat → List Nat
  | [], tx => tx
  | c :: s, tx => if c ≠ 0 then uart_puts s (uart_putchar c tx) else tx

/-- The array of a C string literal: its characters and the final NUL. -/
def cstr (s : String) : List Nat :=
  s.toList.map Char.toNat ++ [0]

/-- The first loop of `print_number`,
`while (n > 0) { temp[j++] = '0' + (n % 10); n /= 10; }`, with `room`
elements of `temp` still free and `temp` the elements written so far
(`temp[0]` first).  When the room is used up the loop stops here. -/
def fill_temp : Nat → Nat → List Nat → List Nat
  | 0, _, temp => temp
  | room + 1, n, temp =>
    if n > 0 then fill_temp room (n / 10) (temp ++ [48 + n % 10]) else temp

/-- The function `print_number`:

    char buf[12]; int i = 0;
    if (n == 0) { uart_putchar('0'); return; }
    char temp[12]; int j = 0;
    while (n > 0) { temp[j++] = '0' + (n % 10); n /= 10; }
    while (j > 0) { buf[i++] = temp[--j]; }
    buf[i] = '\0';
    uart_puts(buf);
-/
def print_number (n : Nat) (tx : List Nat) : List Nat :=
  if n = 0 then
    uart_putchar 48 tx
  else
    let temp := fill_temp 12 n []
    let buf := temp.reverse ++ [0]
    uart_puts buf tx

/-- The first loop of `print_number` with the array checked: `none` when
`temp[j++] = ...` would write outside the 12 elements of `temp`. -/
def fill_temp_checked : Nat → Nat → List Nat → Option (List Nat)
  | 0, n, temp => if n > 0 then none else some temp
  | room + 1, n, temp =>
    if n > 0 then fill_temp_checked room (n / 10) (temp ++ [48 + n % 10]) else some temp

/-- The function `print_number` with its arrays checked: `none` when a
write would fall outside `temp[12]` or `buf[12]` (the final NUL
included), the new transmit log otherwise. -/
def print_number_checked (n : Nat) (tx : List Nat) : Option (List Nat) :=
  if n = 0 then
    some (uart_putchar 48 tx)
  else
    match fill_temp_checked 12 n [] with
    | none => none
    | some temp =>
      if temp.length < 12 then some (uart_puts (temp.reverse ++ [0]) tx) else none

/-- The characters of a text, as the character codes sent on the line. -/
def text (s : String) : List Nat :=
  s.toList.map Char.toNat

/-- The decimal representation of `n` as digit characters, most
significant digit first, with no leading zero; the single character '0'
for 0. -/
def decimal (n : Nat) : List Nat :=
  if n = 0 then [48] else (Nat.digits 10 n).reverse.map (fun d => 48 + d)

/-- The value of a string of decimal digit characters, most significant
first. -/
def parse_decimal (cs : List Nat) : Nat :=
  cs.foldl (fun acc c => 10 * acc + (c - 48)) 0

/-- The function `print_status`. -/
def print_status (cap : Nat) (s : RxState) (tx : List Nat) : List Nat :=
  let tx := uart_puts (cstr "\r\n=== Buffer Status ===\r\n") tx
  let tx := uart_puts (cstr "Buffer size: ") tx
  let tx := print_number cap tx
  let tx := uart_puts (cstr " bytes\r\n") tx
  let tx := uart_puts (cstr "Data in buffer: ") tx
  let tx := print_number (uart_available cap s) tx
  let tx := uart_puts (cstr " bytes\r\n") tx
  let tx := uart_puts (cstr "Total received: ") tx
  let tx := print_number s.rx_total tx
  let tx := uart_puts (cstr " chars\r\n") tx
  let tx := uart_puts (cstr "Overrun count: ") tx
  let tx := print_number s.rx_overrun tx
  let tx := uart_puts (cstr "\r\n") tx
  let tx := uart_puts (cstr "Head index: ") tx
  let tx := print_number s.rx_head tx
  let tx := uart_puts (cstr ", Tail index: ") tx
  let tx := print_number s.rx_tail tx
  uart_puts (cstr "\r\n\r\n") tx

/-- The function `led_set` on the register `GPIO3DATA` (32 bits, LEDs
active-low):

    if (led > 3) return;
    if (on) GPIO3DATA &= ~(1 << led); else GPIO3DATA |= (1 << led);
-/
def led_set (led on_ : Nat) (gpio3data : Nat) : Nat :=
  if led > 3 then gpio3data
  else if on_ ≠ 0 then gpio3data &&& (4294967295 ^^^ (1 <<< led))
  else gpio3data ||| (1 <<< led)

/-- An LED is lit when its bit of `GPIO3DATA` is 0. -/
def led_on (gpio3data led : Nat) : Bool :=
  !(gpio3data.testBit led)

/-- The `uint16_t percent = (used * 100) / (RX_BUF_SIZE - 1);` of
`update_buffer_leds`. -/
def fill_percent (cap used : Nat) : Nat :=
  ((used * 100) / (cap - 1)) % 65536

/-- The function `update_buffer_leds`:

    uint16_t used = uart_available();
    uint16_t percent = (used * 100) / (RX_BUF_SIZE - 1);
    led_set(0, used > 0);
    led_set(1, percent >= 25);
    led_set(2, percent >= 50);
    led_set(3, percent >= 75);
-/
def update_buffer_leds (cap : Nat) (s : RxState) (gpio3data : Nat) : Nat :=
  let used := uart_available cap s
  let percent := fill_percent cap used
  let g := led_set 0 (if used > 0 then 1 else 0) gpio3data
  let g := led_set 1 (if percent ≥ 25 then 1 else 0) g
  let g := led_set 2 (if percent ≥ 50 then 1 else 0) g
  led_set 3 (if percent ≥ 75 then 1 else 0) g

/-- What the main loop works on: the ring buffer, the log of transmitted
characters, the LED register and the two counters of `main`. -/
structure MainState where
  rx : RxState
  tx : List Nat
  gpio3data : Nat
  loop_count : Nat
  last_report : Nat
deriving DecidableEq, Repr

/-- The ten lines of the test pattern,
`for (int i = 0; i < 10; i++) { uart_puts("Test line "); print_number(i);
uart_puts(": ABCDEFGHIJKLMNOPQRSTUVWXYZ\r\n"); delay(100000); }`;
the busy-wait `delay` changes nothing that is modelled. -/
def test_lines (tx : List Nat) : List Nat :=
  (List.range 10).foldl
    (fun tx i =>
      uart_puts (cstr ": ABCDEFGHIJKLMNOPQRSTUVWXYZ\r\n")
        (print_number i (uart_puts (cstr "Test line ") tx)))
    tx

/-- The command dispatch of the main loop on the value `c` returned by
`uart_read`, the ring buffer being `rx` after that call: the new ring
buffer and transmit log.  The character codes are 's' = 115, 'S' = 83,
'f' = 102, 'F' = 70, 't' = 116, 'T' = 84, '\r' = 13. -/
def dispatch (cap : Nat) (c : Int) (rx : RxState) (tx : List Nat) : RxState × List Nat :=
  if c ≥ 0 then
    if c = 115 ∨ c = 83 then
      (rx, uart_puts (cstr "> ") (print_status cap rx tx))
    else if c = 102 ∨ c = 70 then
      (uart_flush rx, uart_puts (cstr "\r\n[Buffer flushed]\r\n> ") tx)
    else if c = 116 ∨ c = 84 then
      (rx, uart_puts (cstr "[Test complete]\r\n> ")
        (test_lines
          (uart_puts (cstr "\r\n[Sending test pattern - type fast to fill buffer!]\r\n") tx)))
    else if c = 13 then
      (rx, uart_puts (cstr "\r\n> ") tx)
    else
      (rx, uart_putchar c.toNat tx)
  else
    (rx, tx)

/-- The end of the loop body, on the two `uint32_t` counters:

    loop_count++;
    if (loop_count - last_report >= 100000) { update_buffer_leds(); last_report = loop_count; }

Gives the new `loop_count`, the new `last_report` and whether
`update_buffer_leds` is called. -/
def report_step (loop_count last_report : Nat) : Nat × Nat × Bool :=
  let loop_count := (loop_count + 1) % 4294967296
  if (loop_count + 4294967296 - last_report) % 4294967296 ≥ 100000 then
    (loop_count, loop_count, true)
  else
    (loop_count, last_report, false)

/-- The counters after `n` iterations of the main loop, from
`loop_count = last_report = 0`. -/
def counters_after : Nat → Nat × Nat
  | 0 => (0, 0)
  | n + 1 =>
    let c := counters_after n
    ((report_step c.1 c.2).1, (report_step c.1 c.2).2.1)

/-- Whether iteration `n` of the main loop (the first is iteration 1) calls
`update_buffer_leds`. -/
def update_in_iteration (n : Nat) : Bool :=
  (report_step (counters_after (n - 1)).1 (counters_after (n - 1)).2).2.2

/-- One iteration of `while (1) { ... }` in `main`, with no interrupt
during it:

    int16_t c = uart_read();
    if (c >= 0) { ...dispatch on c... }
    loop_count++;
    if (loop_count - last_report >= 100000) { update_buffer_leds(); last_report = loop_count; }
-/
def main_iteration (cap : Nat) (m : MainState) : MainState :=
  let r := uart_read cap m.rx
  let d := dispatch cap r.1 r.2 m.tx
  let k := report_step m.loop_count m.last_report
  { rx := d.1,
    tx := d.2,
    gpio3data := if k.2.2 then update_buffer_leds cap d.1 m.gpio3data else m.gpio3data,
    loop_count := k.1,
    last_report := k.2.1 }

end BufferedUART

namespace BufferedUART

/-! ## Index arithmetic -/

theorem mod_of_lt_two_mul {x c : Nat} (h : x < 2 * c) :
    x % c = if x < c then x else x - c := by
  split
  · exact Nat.mod_eq_of_lt ‹x < c›
  · rw [Nat.mod_eq_sub_mod (by omega)]
    exact Nat.mod_eq_of_lt (by omega)

theorem pow_le_65536 {k : Nat} (hk : k ≤ 16) : 2 ^ k ≤ 65536 :=
  calc 2 ^ k ≤ 2 ^ 16 := Nat.pow_le_pow_right (by decide) hk
    _ = 65536 := by norm_num

/-- The masked, `uint16_t`-converted index is the index modulo the capacity. -/
theorem mask_u16 {cap k : Nat} (hcap : cap = 2 ^ k) (hk : k ≤ 16) (x : Nat) :
    (x &&& (cap - 1)) % 65536 = x % cap := by
  subst hcap
  rw [Nat.and_pow_two_sub_one_eq_mod]
  have h1 : x % 2 ^ k < 2 ^ k := Nat.mod_lt _ (by positivity)
  have h2 := pow_le_65536 hk
  exact Nat.mod_eq_of_lt (by omega)

/-- The value `uart_available` computes, for indices inside the array. -/
theorem available_eq_mod {cap k : Nat} (hcap : cap = 2 ^ k) (hk : k ≤ 16)
    (s : RxState) (ht : s.rx_tail < cap) :
    uart_available cap s = (s.rx_head + cap - s.rx_tail) % cap := by
  unfold uart_available
  rw [mask_u16 hcap hk]
  have hdvd : cap ∣ 4294967296 := by
    subst hcap
    have : (4294967296 : Nat) = 2 ^ 32 := by norm_num
    rw [this]
    exact Nat.pow_dvd_pow 2 (by omega)
  rw [Nat.mod_mod_of_dvd _ hdvd]
  obtain ⟨m, hm⟩ := hdvd
  have hpos : 0 < cap := by subst hcap; positivity
  have hm1 : 1 ≤ m := by
    rcases m with _ | m
    · simp at hm
    · omega
  have : s.rx_head + 4294967296 - s.rx_tail = (s.rx_head + cap - s.rx_tail) + cap * (m - 1) := by
    rw [hm]
    have : cap * m = cap + cap * (m - 1) := by
      conv_lhs => rw [show m = 1 + (m - 1) by omega]
      rw [Nat.mul_add, Nat.mul_one]
    omega
  rw [this, Nat.add_mul_mod_self_left]

/-- For a capacity of at most 65536 the masked index is unchanged by the
conversion to `uint16_t`. -/
theorem mask_u16_id {cap : Nat} (hcap : cap ≤ 65536) (x : Nat) :
    (x &&& (cap - 1)) % 65536 = x &&& (cap - 1) := by
  have := @Nat.and_le_right x (cap - 1)
  exact Nat.mod_eq_of_lt (by omega)

/-! ## The buffer as a queue of unread bytes -/

theorem holds_init {cap : Nat} (hpos : 0 < cap) : Holds cap (init cap) [] where
  len := by simp [init]
  tail_lt := hpos
  room := hpos
  head_eq := by simp [init]
  slots := by intro i hi; simp at hi

theorem holds_head_lt {cap : Nat} {s : RxState} {q : List Nat} (h : Holds cap s q) :
    s.rx_head < cap := by
  rw [h.head_eq]
  exact Nat.mod_lt _ (by have := h.tail_lt; omega)

theorem holds_available {cap k : Nat} (hcap : cap = 2 ^ k) (hk : k ≤ 16)
    {s : RxState} {q : List Nat} (h : Holds cap s q) :
    uart_available cap s = q.length := by
  rw [available_eq_mod hcap hk s h.tail_lt, h.head_eq]
  have ht := h.tail_lt
  have hr := h.room
  rw [mod_of_lt_two_mul (show s.rx_tail + q.length < 2 * cap by omega)]
  split
  · rw [mod_of_lt_two_mul (by omega)]
    split <;> omega
  · rw [mod_of_lt_two_mul (by omega)]
    split <;> omega

theorem holds_head_eq_tail_iff {cap : Nat} {s : RxState} {q : List Nat}
    (h : Holds cap s q) : s.rx_head = s.rx_tail ↔ q.length = 0 := by
  have ht := h.tail_lt
  have hr := h.room
  rw [h.head_eq, mod_of_lt_two_mul (show s.rx_tail + q.length < 2 * cap by omega)]
  split <;> omega

theorem holds_next_eq_tail_iff {cap : Nat} {s : RxState} {q : List Nat}
    (h : Holds cap s q) : (s.rx_head + 1) % cap = s.rx_tail ↔ q.length + 1 = cap := by
  have ht := h.tail_lt
  have hr := h.room
  rw [h.head_eq, mod_of_lt_two_mul (show s.rx_tail + q.length < 2 * cap by omega)]
  split
  · rw [mod_of_lt_two_mul (by omega)]
    split <;> omega
  · rw [mod_of_lt_two_mul (by omega)]
    split <;> omega

/-- What the handler's loop body does when the queue has room. -/
theorem step_of_room {cap k : Nat} (hcap : cap = 2 ^ k) (hk : k ≤ 16)
    {s : RxState} {q : List Nat} (h : Holds cap s q) (hroom : q.length + 1 < cap)
    (c : Nat) :
    UART0_IRQHandler_step cap s c =
      { s with rx_buffer := s.rx_buffer.set s.rx_head (c % 256),
               rx_head := (s.rx_head + 1) % cap,
               rx_total := (s.rx_total + 1) % 4294967296 } := by
  have hne : (s.rx_head + 1) % cap ≠ s.rx_tail := by
    rw [Ne, holds_next_eq_tail_iff h]; omega
  simp only [UART0_IRQHandler_step, mask_u16 hcap hk]
  rw [if_pos hne]

/-- What the handler's loop body does when the queue is full. -/
theorem step_of_full {cap k : Nat} (hcap : cap = 2 ^ k) (hk : k ≤ 16)
    {s : RxState} {q : List Nat} (h : Holds cap s q) (hfull : q.length + 1 = cap)
    (c : Nat) :
    UART0_IRQHandler_step cap s c =
      { s with rx_overrun := (s.rx_overrun + 1) % 4294967296,
               rx_total := (s.rx_total + 1) % 4294967296 } := by
  have heq : (s.rx_head + 1) % cap = s.rx_tail := (holds_next_eq_tail_iff h).2 hfull
  simp only [UART0_IRQHandler_step, mask_u16 hcap hk]
  rw [if_neg (by simpa using heq)]

theorem holds_push_room {cap k : Nat} (hcap : cap = 2 ^ k) (hk : k ≤ 16)
    {s : RxState} {q : List Nat} (h : Holds cap s q) (hroom : q.length + 1 < cap)
    (c : Nat) :
    Holds cap (UART0_IRQHandler_step cap s c) (q ++ [c % 256]) := by
  rw [step_of_room hcap hk h hroom]
  have ht := h.tail_lt
  have hh := holds_head_lt h
  have hhe := h.head_eq
  refine ⟨by simp [h.len], ht, by simp; omega, ?_, ?_⟩
  · simp only [List.length_append, List.length_singleton]
    rw [hhe, ← Nat.add_assoc, Nat.mod_add_mod]
  · intro i hi
    simp only [List.length_append, List.length_singleton] at hi
    simp only
    by_cases hin : i < q.length
    · have hne : s.rx_head ≠ (s.rx_tail + i) % cap := by
        rw [hhe, mod_of_lt_two_mul (show s.rx_tail + q.length < 2 * cap by omega),
          mod_of_lt_two_mul (show s.rx_tail + i < 2 * cap by omega)]
        split <;> split <;> omega
      rw [List.getD_eq_getElem?_getD, List.getElem?_set_ne hne,
        ← List.getD_eq_getElem?_getD, h.slots i hin]
      simp [List.getD_eq_getElem?_getD, List.getElem?_append_left hin]
    · have hiq : i = q.length := by omega
      subst hiq
      rw [← hhe]
      simp [List.getD_eq_getElem?_getD, h.len, hh]

theorem holds_push_full {cap k : Nat} (hcap : cap = 2 ^ k) (hk : k ≤ 16)
    {s : RxState} {q : List Nat} (h : Holds cap s q) (hfull : q.length + 1 = cap)
    (c : Nat) :
    Holds cap (UART0_IRQHandler_step cap s c) q := by
  rw [step_of_full hcap hk h hfull]
  exact ⟨h.len, h.tail_lt, h.room, h.head_eq, h.slots⟩

theorem read_of_nil {cap : Nat} {s : RxState} (h : Holds cap s []) :
    uart_read cap s = (-1, s) := by
  have : s.rx_head = s.rx_tail := (holds_head_eq_tail_iff h).2 rfl
  simp [uart_read, this]

theorem read_of_cons {cap k : Nat} (hcap : cap = 2 ^ k) (hk : k ≤ 16)
    {s : RxState} {x : Nat} {q : List Nat} (h : Holds cap s (x :: q)) :
    uart_read cap s = (Int.ofNat x, { s with rx_tail := (s.rx_tail + 1) % cap }) := by
  have hne : s.rx_head ≠ s.rx_tail := by
    rw [Ne, holds_head_eq_tail_iff h]; simp
  have h0 := h.slots 0 (by simp)
  rw [Nat.add_zero, Nat.mod_eq_of_lt h.tail_lt] at h0
  simp only [uart_read, mask_u16 hcap hk]
  rw [if_neg hne, h0]
  simp

theorem holds_pop_cons {cap k : Nat} (hcap : cap = 2 ^ k) (hk : k ≤ 16)
    {s : RxState} {x : Nat} {q : List Nat} (h : Holds cap s (x :: q)) :
    Holds cap (uart_read cap s).2 q := by
  rw [read_of_cons hcap hk h]
  have ht := h.tail_lt
  have hr := h.room
  simp only [List.length_cons] at hr
  refine ⟨h.len, Nat.mod_lt _ (by omega), by omega, ?_, ?_⟩
  · simp only
    rw [h.head_eq, Nat.mod_add_mod, List.length_cons]
    congr 1; omega
  · intro i hi
    simp only
    have := h.slots (i + 1) (by simp; omega)
    rw [Nat.mod_add_mod, show s.rx_tail + 1 + i = s.rx_tail + (i + 1) by omega, this]
    simp [List.getD_eq_getElem?_getD]

theorem holds_flush {cap : Nat} {s : RxState} {q : List Nat} (h : Holds cap s q) :
    Holds cap (uart_flush s) [] := by
  have hh := holds_head_lt h
  refine ⟨h.len, hh, by simp; omega, ?_, ?_⟩
  · simp [uart_flush, Nat.mod_eq_of_lt hh]
  · intro i hi; simp at hi

/-- Every operation acts on the unread bytes as the list queue does. -/
theorem holds_applyOp {cap k : Nat} (hcap : cap = 2 ^ k) (hk : k ≤ 16)
    {s : RxState} {q : List Nat} (h : Holds cap s q) (op : Op) :
    Holds cap (applyOp cap s op) (queueOp cap q op) := by
  cases op with
  | push c =>
    simp only [applyOp, queueOp]
    split
    · exact holds_push_room hcap hk h ‹_› c
    · exact holds_push_full hcap hk h (by have := h.room; omega) c
  | pop =>
    simp only [applyOp, queueOp]
    cases q with
    | nil => rw [read_of_nil h]; exact h
    | cons x q => exact holds_pop_cons hcap hk h
  | flush => exact holds_flush h

theorem holds_exec {cap k : Nat} (hcap : cap = 2 ^ k) (hk : k ≤ 16) (ops : List Op) :
    ∀ {s : RxState} {q : List Nat}, Holds cap s q →
      Holds cap (exec cap s ops) (ops.foldl (queueOp cap) q) := by
  induction ops with
  | nil => intro s q h; exact h
  | cons op ops ih => intro s q h; exact ih (holds_applyOp hcap hk h op)

/-- Every reachable state holds some queue of unread bytes. -/
theorem holds_of_reachable {cap k : Nat} (hcap : cap = 2 ^ k) (hk : k ≤ 16)
    {s : RxState} (hs : Reachable cap s) : ∃ q, Holds cap s q := by
  obtain ⟨ops, rfl⟩ := hs
  exact ⟨_, holds_exec hcap hk ops (holds_init (by subst hcap; positivity))⟩

/-- Draining a state that holds `q` returns `q` and then -1, within
`q.length + 1` calls. -/
theorem drain_of_holds {cap k : Nat} (hcap : cap = 2 ^ k) (hk : k ≤ 16) :
    ∀ (q : List Nat) (fuel : Nat) (s : RxState), Holds cap s q → q.length < fuel →
      (drain cap fuel s).map Prod.fst = some (q.map Int.ofNat) := by
  intro q
  induction q with
  | nil =>
    intro fuel s h hf
    obtain ⟨f, rfl⟩ : ∃ f, fuel = f + 1 := ⟨fuel - 1, by simp at hf; omega⟩
    simp [drain, read_of_nil h]
  | cons x q ih =>
    intro fuel s h hf
    obtain ⟨f, rfl⟩ : ∃ f, fuel = f + 1 := ⟨fuel - 1, by omega⟩
    have hq := ih f _ (holds_pop_cons hcap hk h) (by simp at hf; omega)
    have hx : (uart_read cap s).1 = Int.ofNat x := by rw [read_of_cons hcap hk h]
    have hx1 : ¬ (uart_read cap s).1 = -1 := by rw [hx]; simp
    rw [drain, if_neg hx1]
    cases hd : drain cap f (uart_read cap s).2 with
    | none => rw [hd] at hq; simp at hq
    | some r =>
      rw [hd] at hq
      simp only [Option.map_some', Option.some.injEq] at hq
      simp [hx, hq]

/-- The pops of an admissible interleaving return the unread bytes and
then the pushed ones, oldest first. -/
theorem reads_of_admissible {cap k : Nat} (hcap : cap = 2 ^ k) (hk : k ≤ 16)
    (ops : List Op) :
    ∀ {s : RxState} {q : List Nat}, Holds cap s q → Admissible cap q.length ops →
      reads cap s ops = ((q ++ pushed ops).take (popCount ops)).map Int.ofNat := by
  induction ops with
  | nil => intro s q _ _; simp [reads, popCount]
  | cons op ops ih =>
    intro s q h ha
    cases op with
    | push c =>
      obtain ⟨hroom, ha⟩ := ha
      have hpos : 0 < cap := by subst hcap; positivity
      have h1 := holds_push_room hcap hk h (show q.length + 1 < cap by omega) c
      have := ih h1 (by simpa using ha)
      simp only [reads, applyOp, pushed, popCount]
      rw [this, List.append_assoc]
      rfl
    | pop =>
      obtain ⟨hn, ha⟩ := ha
      cases q with
      | nil => simp at hn
      | cons x q =>
        have := ih (holds_pop_cons hcap hk h) (by simpa using ha)
        simp only [reads, applyOp, popCount]
        rw [this, read_of_cons hcap hk h]
        simp [pushed]
    | flush => exact absurd ha (by simp [Admissible])

theorem admissible_pops (cap : Nat) : ∀ n : Nat, Admissible cap n (List.replicate n Op.pop) := by
  intro n
  induction n with
  | zero => trivial
  | succ n ih => exact ⟨Nat.succ_pos n, by simpa using ih⟩

theorem admissible_pushes (cap : Nat) (cs : List Nat) :
    ∀ n : Nat, n + cs.length ≤ cap - 1 →
      Admissible cap n (cs.map Op.push ++ List.replicate (n + cs.length) Op.pop) := by
  induction cs with
  | nil => intro n _; simpa using admissible_pops cap n
  | cons c cs ih =>
    intro n hn
    simp only [List.length_cons] at hn
    refine ⟨by omega, ?_⟩
    have := ih (n + 1) (by omega)
    rw [show n + 1 + cs.length = n + (c :: cs).length by simp; omega] at this
    exact this

theorem pushed_pushes (cs : List Nat) (m : Nat) :
    pushed (cs.map Op.push ++ List.replicate m Op.pop) = cs.map (fun c => c % 256) := by
  induction cs with
  | nil =>
    induction m with
    | zero => rfl
    | succ m ih => simpa [List.replicate_succ, pushed] using ih
  | cons c cs ih => simp [pushed, ih]

theorem popCount_pushes (cs : List Nat) (m : Nat) :
    popCount (cs.map Op.push ++ List.replicate m Op.pop) = m := by
  induction cs with
  | nil =>
    induction m with
    | zero => rfl
    | succ m ih => simpa [List.replicate_succ, popCount] using ih
  | cons c cs ih => simpa [popCount] using ih

theorem map_mod_of_bytes (cs : List Nat) (h : ∀ c ∈ cs, c < 256) :
    cs.map (fun c => c % 256) = cs := by
  induction cs with
  | nil => rfl
  | cons c cs ih =>
    simp only [List.map_cons]
    rw [Nat.mod_eq_of_lt (h c (by simp)), ih (fun d hd => h d (by simp [hd]))]

/-- A run of pushes keeps the first `cap - 1` bytes and counts every
later one in `rx_overrun`. -/
theorem holds_pushes {cap k : Nat} (hcap : cap = 2 ^ k) (hk : k ≤ 16) (cs : List Nat) :
    ∀ {s : RxState} {q : List Nat}, Holds cap s q → s.rx_overrun < 4294967296 →
      Holds cap (exec cap s (cs.map Op.push))
        ((q ++ cs.map (fun c => c % 256)).take (cap - 1)) ∧
      (exec cap s (cs.map Op.push)).rx_overrun =
        (s.rx_overrun + (q.length + cs.length - (cap - 1))) % 4294967296 := by
  induction cs with
  | nil =>
    intro s q h ho
    have hr := h.room
    refine ⟨?_, ?_⟩
    · simpa [exec, List.take_of_length_le (show q.length ≤ cap - 1 by omega)] using h
    · simp only [List.map_nil, exec, List.length_nil, Nat.add_zero]
      rw [show q.length - (cap - 1) = 0 by omega, Nat.add_zero, Nat.mod_eq_of_lt ho]
  | cons c cs ih =>
    intro s q h ho
    have hr := h.room
    simp only [List.map_cons, exec, applyOp, List.length_cons]
    by_cases hroom : q.length + 1 < cap
    · have ho1 : (UART0_IRQHandler_step cap s c).rx_overrun = s.rx_overrun := by
        rw [step_of_room hcap hk h hroom]
      obtain ⟨i1, i2⟩ := ih (holds_push_room hcap hk h hroom c) (by rw [ho1]; exact ho)
      refine ⟨by simpa using i1, ?_⟩
      rw [i2, ho1]; simp only [List.length_append, List.length_singleton]
      congr 2; omega
    · have hfull : q.length + 1 = cap := by omega
      have ho1 : (UART0_IRQHandler_step cap s c).rx_overrun =
          (s.rx_overrun + 1) % 4294967296 := by
        rw [step_of_full hcap hk h hfull]
      obtain ⟨i1, i2⟩ := ih (holds_push_full hcap hk h hfull c)
        (by rw [ho1]; exact Nat.mod_lt _ (by norm_num))
      refine ⟨?_, ?_⟩
      · rw [List.take_append_of_le_length (by omega)] at i1 ⊢
        exact i1
      · rw [i2, ho1, Nat.mod_add_mod]
        congr 1; omega

/-! ## Contract of the ring buffer -/

/-- C1 (round trip, FIFO order).  For a power-of-two capacity that fits the
`uint16_t` indices: started from the initial empty buffer, any
interleaving of pushes and pops in which the pushed-but-unread bytes never
exceed `cap - 1` and every pop finds a byte returns, pop by pop, the
pushed bytes in their order (the first `popCount ops` of them, so a prefix
when bytes remain unread).  In particular pushing `cap - 1` bytes `cs` and
popping `cap - 1` times returns `cs`. -/
theorem fifo_round_trip (cap k : Nat) (hcap : cap = 2 ^ k) (hk : k ≤ 16)
    (ops : List Op) (hadm : Admissible cap 0 ops)
    (cs : List Nat) (hlen : cs.length = cap - 1) (hbytes : ∀ c ∈ cs, c < 256) :
    reads cap (init cap) ops = ((pushed ops).take (popCount ops)).map Int.ofNat ∧
    reads cap (init cap) (cs.map Op.push ++ List.replicate (cap - 1) Op.pop) =
      cs.map Int.ofNat := by
  have hpos : 0 < cap := by subst hcap; positivity
  have h0 : Holds cap (init cap) [] := holds_init hpos
  refine ⟨by simpa using reads_of_admissible hcap hk ops h0 hadm, ?_⟩
  have ha : Admissible cap 0 (cs.map Op.push ++ List.replicate (cap - 1) Op.pop) := by
    have := admissible_pushes cap cs 0 (by omega)
    rwa [Nat.zero_add, hlen] at this
  have := reads_of_admissible hcap hk _ h0 ha
  rw [this, pushed_pushes, popCount_pushes, map_mod_of_bytes cs hbytes, List.nil_append,
    List.take_of_length_le (by omega)]

/-- C1 at the source's capacity 64: an interleaving with a byte 255 and a
full load of 63 bytes. -/
theorem fifo_round_trip_witness :
    reads RX_BUF_SIZE (init RX_BUF_SIZE)
        [Op.push 104, Op.push 255, Op.pop, Op.push 0, Op.pop] = [104, 255] ∧
    reads RX_BUF_SIZE (init RX_BUF_SIZE)
        ((List.range 63).map Op.push ++ List.replicate (RX_BUF_SIZE - 1) Op.pop) =
      (List.range 63).map Int.ofNat :=
  fifo_round_trip RX_BUF_SIZE 6 (by decide) (by decide)
    [Op.push 104, Op.push 255, Op.pop, Op.push 0, Op.pop] (by decide)
    (List.range 63) (by simp [RX_BUF_SIZE]) (by intro c hc; simp at hc; omega)

/-- C2 (overrun accounting).  From the initial empty buffer, `N` pushes with
no pop in between, `N > cap - 1` and `N - (cap - 1)` within `uint32_t`:
`rx_overrun` ends at `N - (cap - 1)`, and draining with `uart_read` (any
bound of at least `cap` calls) returns exactly the first `cap - 1` pushed
bytes, in order. -/
theorem overrun_accounting (cap k : Nat) (hcap : cap = 2 ^ k) (hk : k ≤ 16)
    (cs : List Nat) (hN : cap - 1 < cs.length)
    (hW : cs.length - (cap - 1) < 4294967296) (fuel : Nat) (hfuel : cap ≤ fuel) :
    (exec cap (init cap) (cs.map Op.push)).rx_overrun = cs.length - (cap - 1) ∧
    (drain cap fuel (exec cap (init cap) (cs.map Op.push))).map Prod.fst =
      some (((cs.map (fun c => c % 256)).take (cap - 1)).map Int.ofNat) ∧
    ((cs.map (fun c => c % 256)).take (cap - 1)).length = cap - 1 := by
  have hpos : 0 < cap := by subst hcap; positivity
  obtain ⟨h1, h2⟩ := holds_pushes hcap hk cs (holds_init hpos)
    (show (init cap).rx_overrun < 4294967296 by simp [init])
  refine ⟨?_, ?_, ?_⟩
  · rw [h2]
    simp only [init, List.length_nil, Nat.zero_add]
    exact Nat.mod_eq_of_lt hW
  · rw [List.nil_append] at h1
    exact drain_of_holds hcap hk _ fuel _ h1 (by have := h1.room; omega)
  · simp only [List.length_take, List.length_map]
    omega

/-- C2 at capacity 64: 66 pushes leave 3 overruns and the first 63 bytes. -/
theorem overrun_accounting_witness :
    (exec RX_BUF_SIZE (init RX_BUF_SIZE) ((List.range 66).map Op.push)).rx_overrun = 3 ∧
    (drain RX_BUF_SIZE 64
        (exec RX_BUF_SIZE (init RX_BUF_SIZE) ((List.range 66).map Op.push))).map Prod.fst =
      some ((List.range 63).map Int.ofNat) ∧
    (((List.range 66).map (fun c => c % 256)).take (RX_BUF_SIZE - 1)).length = 63 :=
  overrun_accounting RX_BUF_SIZE 6 (by decide) (by decide) (List.range 66)
    (by simp [RX_BUF_SIZE]) (by simp [RX_BUF_SIZE]) 64 (by decide)

/-- C3 (available-count correctness).  In every state reachable by pushes,
pops and flushes, `uart_available` is the number of bytes that calling
`uart_read` until it returns -1 yields (any bound of at least `cap`
calls is enough for the -1 to come). -/
theorem available_counts_drain (cap k : Nat) (hcap : cap = 2 ^ k) (hk : k ≤ 16)
    (s : RxState) (hs : Reachable cap s) (fuel : Nat) (hfuel : cap ≤ fuel) :
    (drain cap fuel s).map (fun r => r.1.length) = some (uart_available cap s) := by
  obtain ⟨q, h⟩ := holds_of_reachable hcap hk hs
  have hd := drain_of_holds hcap hk q fuel s h (by have := h.room; omega)
  rw [holds_available hcap hk h]
  cases hdr : drain cap fuel s with
  | none => rw [hdr] at hd; simp at hd
  | some r =>
    rw [hdr] at hd
    simp only [Option.map_some', Option.some.injEq] at hd
    simp [hd]

/-- C3 at capacity 64, in a state reached by pushes, a pop and a flush. -/
theorem available_counts_drain_witness :
    (drain RX_BUF_SIZE 64
        (exec RX_BUF_SIZE (init RX_BUF_SIZE)
          [Op.push 1, Op.pop, Op.push 2, Op.flush, Op.push 3, Op.push 4])).map
        (fun r => r.1.length) = some 2 ∧
    uart_available RX_BUF_SIZE
        (exec RX_BUF_SIZE (init RX_BUF_SIZE)
          [Op.push 1, Op.pop, Op.push 2, Op.flush, Op.push 3, Op.push 4]) = 2 :=
  ⟨available_counts_drain RX_BUF_SIZE 6 (by decide) (by decide) _ ⟨_, rfl⟩ 64 (by decide),
    by decide⟩

/-- C4 (push on a full buffer drops the newest byte).  When
`(rx_head + 1) & (RX_BUF_SIZE - 1) == rx_tail` as a character arrives, the
handler's loop body adds 1 to `rx_overrun` and to `rx_total` (`uint32_t`
increments: exactly `+ 1` below the maximum) and leaves `rx_head`,
`rx_tail` and the whole of `rx_buffer` as they were. -/
theorem push_full_drops_newest (cap : Nat) (hcap : cap ≤ 65536) (s : RxState)
    (u0rbr : Nat) (hfull : (s.rx_head + 1) &&& (cap - 1) = s.rx_tail) :
    (UART0_IRQHandler_step cap s u0rbr).rx_overrun = (s.rx_overrun + 1) % 4294967296 ∧
    (s.rx_overrun + 1 < 4294967296 →
      (UART0_IRQHandler_step cap s u0rbr).rx_overrun = s.rx_overrun + 1) ∧
    (UART0_IRQHandler_step cap s u0rbr).rx_total = (s.rx_total + 1) % 4294967296 ∧
    (s.rx_total + 1 < 4294967296 →
      (UART0_IRQHandler_step cap s u0rbr).rx_total = s.rx_total + 1) ∧
    (UART0_IRQHandler_step cap s u0rbr).rx_head = s.rx_head ∧
    (UART0_IRQHandler_step cap s u0rbr).rx_tail = s.rx_tail ∧
    (UART0_IRQHandler_step cap s u0rbr).rx_buffer = s.rx_buffer := by
  have hstep : UART0_IRQHandler_step cap s u0rbr =
      { s with rx_overrun := (s.rx_overrun + 1) % 4294967296,
               rx_total := (s.rx_total + 1) % 4294967296 } := by
    simp only [UART0_IRQHandler_step, mask_u16_id hcap]
    rw [if_neg (by simpa using hfull)]
  rw [hstep]
  exact ⟨rfl, fun h => Nat.mod_eq_of_lt h, rfl, fun h => Nat.mod_eq_of_lt h, rfl, rfl, rfl⟩

/-- C4 on a full buffer of capacity 64 (head 4 just behind tail 5). -/
theorem push_full_drops_newest_witness :
    UART0_IRQHandler_step RX_BUF_SIZE
        { rx_buffer := List.replicate 64 7, rx_head := 4, rx_tail := 5,
          rx_overrun := 2, rx_total := 70 } 200 =
      { rx_buffer := List.replicate 64 7, rx_head := 4, rx_tail := 5,
        rx_overrun := 3, rx_total := 71 } ∧
    (UART0_IRQHandler_step RX_BUF_SIZE
        { rx_buffer := List.replicate 64 7, rx_head := 4, rx_tail := 5,
          rx_overrun := 2, rx_total := 70 } 200).rx_overrun = 3 :=
  ⟨by decide,
    (push_full_drops_newest RX_BUF_SIZE (by decide)
      { rx_buffer := List.replicate 64 7, rx_head := 4, rx_tail := 5,
        rx_overrun := 2, rx_total := 70 } 200 (by decide)).1⟩

/-- C5 (push on a non-full buffer).  When
`(rx_head + 1) & (RX_BUF_SIZE - 1) != rx_tail` as the character `c`
(the `uint8_t` made of `U0RBR`) arrives and `rx_head` indexes the array:
afterwards `rx_buffer[old rx_head] == c`, `rx_head` is
`(old rx_head + 1) & (RX_BUF_SIZE - 1)`, `rx_total` has grown by 1, and
`rx_overrun`, `rx_tail` and every other element of `rx_buffer` are
unchanged. -/
theorem push_room_stores (cap : Nat) (hcap : cap ≤ 65536) (s : RxState) (u0rbr : Nat)
    (hroom : (s.rx_head + 1) &&& (cap - 1) ≠ s.rx_tail)
    (hidx : s.rx_head < s.rx_buffer.length) :
    (UART0_IRQHandler_step cap s u0rbr).rx_buffer.getD s.rx_head 0 = u0rbr % 256 ∧
    (UART0_IRQHandler_step cap s u0rbr).rx_head = (s.rx_head + 1) &&& (cap - 1) ∧
    (UART0_IRQHandler_step cap s u0rbr).rx_total = (s.rx_total + 1) % 4294967296 ∧
    (s.rx_total + 1 < 4294967296 →
      (UART0_IRQHandler_step cap s u0rbr).rx_total = s.rx_total + 1) ∧
    (UART0_IRQHandler_step cap s u0rbr).rx_overrun = s.rx_overrun ∧
    (UART0_IRQHandler_step cap s u0rbr).rx_tail = s.rx_tail ∧
    (UART0_IRQHandler_step cap s u0rbr).rx_buffer.length = s.rx_buffer.length ∧
    (∀ i, i ≠ s.rx_head →
      (UART0_IRQHandler_step cap s u0rbr).rx_buffer.getD i 0 = s.rx_buffer.getD i 0) := by
  have hstep : UART0_IRQHandler_step cap s u0rbr =
      { s with rx_buffer := s.rx_buffer.set s.rx_head (u0rbr % 256),
               rx_head := (s.rx_head + 1) &&& (cap - 1),
               rx_total := (s.rx_total + 1) % 4294967296 } := by
    simp only [UART0_IRQHandler_step, mask_u16_id hcap]
    rw [if_pos hroom]
  rw [hstep]
  refine ⟨?_, rfl, rfl, fun h => Nat.mod_eq_of_lt h, rfl, rfl, ?_, ?_⟩
  · simp [List.getD_eq_getElem?_getD, hidx]
  · simp
  · intro i hi
    simp only
    rw [List.getD_eq_getElem?_getD, List.getElem?_set_ne (Ne.symm hi),
      ← List.getD_eq_getElem?_getD]

/-- C5 at capacity 64: the character 0x141 arrives in the initial state. -/
theorem push_room_stores_witness :
    (UART0_IRQHandler_step RX_BUF_SIZE (init RX_BUF_SIZE) 321).rx_buffer.getD 0 0 = 65 ∧
    (UART0_IRQHandler_step RX_BUF_SIZE (init RX_BUF_SIZE) 321).rx_head = 1 :=
  have h := push_room_stores RX_BUF_SIZE (by decide) (init RX_BUF_SIZE) 321
    (by decide) (by decide)
  ⟨h.1, h.2.1⟩

/-- C6 (pop on an empty buffer).  Whenever `rx_head == rx_tail`,
`uart_read` returns -1 and leaves the whole state (`rx_head`, `rx_tail`,
`rx_buffer`, `rx_overrun`, `rx_total`) unchanged; being a total function
it returns at once. -/
theorem read_empty (cap : Nat) (s : RxState) (hempty : s.rx_head = s.rx_tail) :
    uart_read cap s = (-1, s) := by
  simp [uart_read, hempty]

/-- C6 in the initial state at capacity 64. -/
theorem read_empty_witness :
    uart_read RX_BUF_SIZE (init RX_BUF_SIZE) = (-1, init RX_BUF_SIZE) :=
  read_empty RX_BUF_SIZE (init RX_BUF_SIZE) (by decide)

/-- C7 (pop on a non-empty buffer).  Whenever `rx_head != rx_tail` (with
`rx_tail` inside the array of `uint8_t`), `uart_read` returns the byte
`rx_buffer[rx_tail]` as a value in 0..255, never -1, sets `rx_tail` to
`(old rx_tail + 1) & (RX_BUF_SIZE - 1)` and changes nothing else. -/
theorem read_nonempty (cap : Nat) (hcap : cap ≤ 65536) (s : RxState)
    (hne : s.rx_head ≠ s.rx_tail) (hidx : s.rx_tail < s.rx_buffer.length)
    (hbytes : ∀ b ∈ s.rx_buffer, b < 256) :
    (uart_read cap s).1 = Int.ofNat s.rx_buffer[s.rx_tail] ∧
    0 ≤ (uart_read cap s).1 ∧ (uart_read cap s).1 ≤ 255 ∧ (uart_read cap s).1 ≠ -1 ∧
    (uart_read cap s).2 = { s with rx_tail := (s.rx_tail + 1) &&& (cap - 1) } := by
  have hread : uart_read cap s =
      (Int.ofNat s.rx_buffer[s.rx_tail],
        { s with rx_tail := (s.rx_tail + 1) &&& (cap - 1) }) := by
    simp only [uart_read, mask_u16_id hcap]
    rw [if_neg hne]
    simp [List.getD_eq_getElem?_getD, hidx]
  have hb : s.rx_buffer[s.rx_tail] < 256 := hbytes _ (List.getElem_mem hidx)
  rw [hread]
  refine ⟨rfl, ?_, ?_, ?_, rfl⟩
  · simp
  · simp only [Int.ofNat_eq_coe]; omega
  · simp only [Int.ofNat_eq_coe]; omega

/-- C7 at capacity 64: the stored byte 0xFF is read back as 255. -/
theorem read_nonempty_witness :
    (uart_read RX_BUF_SIZE (exec RX_BUF_SIZE (init RX_BUF_SIZE) [Op.push 255])).1 = 255 ∧
    (uart_read RX_BUF_SIZE (exec RX_BUF_SIZE (init RX_BUF_SIZE) [Op.push 255])).2.rx_tail = 1 :=
  have h := read_nonempty RX_BUF_SIZE (by decide)
    (exec RX_BUF_SIZE (init RX_BUF_SIZE) [Op.push 255]) (by decide) (by decide) (by decide)
  ⟨h.1, congrArg RxState.rx_tail h.2.2.2.2⟩

/-- C8 (flush).  In every state, reachable or not: after `uart_flush`,
`uart_available` is 0 and `uart_read` returns -1 (leaving the flushed
state as it is); and flushing twice gives the same state as flushing
once. -/
theorem flush_empties_idempotent (cap : Nat) (s : RxState) :
    uart_available cap (uart_flush s) = 0 ∧
    uart_read cap (uart_flush s) = (-1, uart_flush s) ∧
    uart_flush (uart_flush s) = uart_flush s := by
  refine ⟨?_, ?_, rfl⟩
  · simp [uart_available, uart_flush]
  · simp [uart_read, uart_flush]

/-- C9 (occupancy invariant).  In every state reachable by pushes, pops
and flushes, `uart_available` returns `(rx_head - rx_tail) mod RX_BUF_SIZE`
(the mathematical, non-negative remainder), a value between 0 and
`RX_BUF_SIZE - 1`: the value `RX_BUF_SIZE` is never returned. -/
theorem occupancy_invariant (cap k : Nat) (hcap : cap = 2 ^ k) (hk : k ≤ 16)
    (s : RxState) (hs : Reachable cap s) :
    (uart_available cap s : Int) = ((s.rx_head : Int) - (s.rx_tail : Int)) % (cap : Int) ∧
    uart_available cap s ≤ cap - 1 ∧ uart_available cap s ≠ cap := by
  obtain ⟨q, h⟩ := holds_of_reachable hcap hk hs
  have ht := h.tail_lt
  have hr := h.room
  have hlen := holds_available hcap hk h
  refine ⟨?_, by omega, by omega⟩
  rw [available_eq_mod hcap hk s ht]
  have e : ((s.rx_head + cap - s.rx_tail : Nat) : Int) =
      ((s.rx_head : Int) - (s.rx_tail : Int)) + (cap : Int) := by omega
  rw [Int.natCast_mod, e, Int.add_emod_self]

/-- C9 at capacity 4, after `rx_head` has wrapped (head 1, tail 3). -/
theorem occupancy_invariant_witness :
    uart_available 4 (exec 4 (init 4)
      [Op.push 1, Op.push 2, Op.push 3, Op.pop, Op.pop, Op.pop, Op.push 4, Op.push 5]) = 2 ∧
    ((uart_available 4 (exec 4 (init 4)
      [Op.push 1, Op.push 2, Op.push 3, Op.pop, Op.pop, Op.pop, Op.push 4, Op.push 5]) : Nat)
        : Int) = ((1 : Int) - 3) % 4 :=
  ⟨by decide,
    (occupancy_invariant 4 2 (by decide) (by decide) _
      ⟨[Op.push 1, Op.push 2, Op.push 3, Op.pop, Op.pop, Op.pop, Op.push 4, Op.push 5],
        rfl⟩).1⟩

/-- C10 (empty/full characterisation).  In every reachable state:
`uart_available() == 0` iff `rx_head == rx_tail`; `uart_read` returns a
byte iff `uart_available() > 0`; `uart_available() == RX_BUF_SIZE - 1` iff
`(rx_head + 1) mod RX_BUF_SIZE == rx_tail`; and an arriving byte is stored
(written at `rx_head`, which advances, so that one more byte is unread) iff
`uart_available() < RX_BUF_SIZE - 1`, the array and `rx_head` being left
alone otherwise. -/
theorem empty_full_characterisation (cap k : Nat) (hcap : cap = 2 ^ k) (hk : k ≤ 16)
    (s : RxState) (hs : Reachable cap s) (u0rbr : Nat) :
    (uart_available cap s = 0 ↔ s.rx_head = s.rx_tail) ∧
    ((uart_read cap s).1 ≠ -1 ↔ 0 < uart_available cap s) ∧
    (uart_available cap s = cap - 1 ↔ (s.rx_head + 1) % cap = s.rx_tail) ∧
    (uart_available cap (UART0_IRQHandler_step cap s u0rbr) = uart_available cap s + 1 ↔
      uart_available cap s < cap - 1) ∧
    (uart_available cap s < cap - 1 →
      (UART0_IRQHandler_step cap s u0rbr).rx_buffer =
        s.rx_buffer.set s.rx_head (u0rbr % 256) ∧
      (UART0_IRQHandler_step cap s u0rbr).rx_head = (s.rx_head + 1) % cap) ∧
    (¬ uart_available cap s < cap - 1 →
      (UART0_IRQHandler_step cap s u0rbr).rx_buffer = s.rx_buffer ∧
      (UART0_IRQHandler_step cap s u0rbr).rx_head = s.rx_head) := by
  obtain ⟨q, h⟩ := holds_of_reachable hcap hk hs
  have hr := h.room
  have hlen := holds_available hcap hk h
  refine ⟨?_, ?_, ?_, ?_, ?_, ?_⟩
  · rw [hlen, holds_head_eq_tail_iff h]
  · rw [hlen]
    cases q with
    | nil => simp [read_of_nil h]
    | cons x q =>
      rw [read_of_cons hcap hk h]
      simp only [Int.ofNat_eq_coe, List.length_cons]
      constructor
      · intro _; omega
      · intro _; omega
  · rw [hlen, holds_next_eq_tail_iff h]
    omega
  · by_cases hroom : q.length + 1 < cap
    · rw [holds_available hcap hk (holds_push_room hcap hk h hroom u0rbr), hlen]
      simp only [List.length_append, List.length_singleton, true_iff]
      omega
    · rw [holds_available hcap hk (holds_push_full hcap hk h (by omega) u0rbr), hlen]
      constructor
      · intro _; omega
      · intro _; omega
  · intro hlt
    rw [step_of_room hcap hk h (by omega)]
    exact ⟨rfl, rfl⟩
  · intro hge
    rw [step_of_full hcap hk h (by omega)]
    exact ⟨rfl, rfl⟩

/-- C10 at capacity 4 with three unread bytes: the buffer is full and a
fourth byte is not stored. -/
theorem empty_full_characterisation_witness :
    uart_available 4 (exec 4 (init 4) [Op.push 1, Op.push 2, Op.push 3]) = 4 - 1 ∧
    ¬ (uart_available 4 (UART0_IRQHandler_step 4
          (exec 4 (init 4) [Op.push 1, Op.push 2, Op.push 3]) 9) =
        uart_available 4 (exec 4 (init 4) [Op.push 1, Op.push 2, Op.push 3]) + 1) :=
  have h := empty_full_characterisation 4 2 (by decide) (by decide)
    (exec 4 (init 4) [Op.push 1, Op.push 2, Op.push 3])
    ⟨[Op.push 1, Op.push 2, Op.push 3], rfl⟩ 9
  ⟨h.2.2.1.2 (by decide), fun e => absurd (h.2.2.2.1.1 e) (by decide)⟩

/-! ## Scenarios, counters and ownership -/

/-- C11 (scenario, capacity 8).  Pushing 1..8 into the initial empty buffer
with no pop stores the first seven bytes and drops the eighth: the eighth
push changes only the counters; afterwards `rx_overrun` is 1,
`uart_available` is 7, and draining with `uart_read` yields 1..7 and then
the empty result -1. -/
theorem scenario_capacity_8 :
    exec 8 (init 8) ([1, 2, 3, 4, 5, 6, 7].map Op.push) =
      { rx_buffer := [1, 2, 3, 4, 5, 6, 7, 0], rx_head := 7, rx_tail := 0,
        rx_overrun := 0, rx_total := 7 } ∧
    exec 8 (init 8) ([1, 2, 3, 4, 5, 6, 7, 8].map Op.push) =
      { rx_buffer := [1, 2, 3, 4, 5, 6, 7, 0], rx_head := 7, rx_tail := 0,
        rx_overrun := 1, rx_total := 8 } ∧
    uart_available 8 (exec 8 (init 8) ([1, 2, 3, 4, 5, 6, 7, 8].map Op.push)) = 7 ∧
    (drain 8 8 (exec 8 (init 8) ([1, 2, 3, 4, 5, 6, 7, 8].map Op.push))).map Prod.fst =
      some [1, 2, 3, 4, 5, 6, 7] ∧
    reads 8 (init 8) ([1, 2, 3, 4, 5, 6, 7, 8].map Op.push ++ List.replicate 8 Op.pop) =
      [1, 2, 3, 4, 5, 6, 7, -1] := by
  refine ⟨?_, ?_, ?_, ?_, ?_⟩ <;> decide

/-- C12 (scenario, capacity 4, index wraparound).  Starting empty: push 10
and 20, pop (10), push 30 and 40, pop until empty (20, 30, 40, then -1);
no overrun is counted, and `rx_head` goes from 3 back to 0 at the push
of 40. -/
theorem scenario_capacity_4 :
    reads 4 (init 4) [Op.push 10, Op.push 20, Op.pop] = [10] ∧
    (drain 4 4 (exec 4 (init 4)
      [Op.push 10, Op.push 20, Op.pop, Op.push 30, Op.push 40])).map Prod.fst =
      some [20, 30, 40] ∧
    reads 4 (init 4)
      [Op.push 10, Op.push 20, Op.pop, Op.push 30, Op.push 40,
        Op.pop, Op.pop, Op.pop, Op.pop] = [10, 20, 30, 40, -1] ∧
    (exec 4 (init 4)
      [Op.push 10, Op.push 20, Op.pop, Op.push 30, Op.push 40,
        Op.pop, Op.pop, Op.pop, Op.pop]).rx_overrun = 0 ∧
    (exec 4 (init 4) [Op.push 10, Op.push 20, Op.pop, Op.push 30]).rx_head = 3 ∧
    (exec 4 (init 4) [Op.push 10, Op.push 20, Op.pop, Op.push 30, Op.push 40]).rx_head = 0 := by
  refine ⟨?_, ?_, ?_, ?_, ?_, ?_⟩ <;> decide

/-- C17, as the spec states it, fails: on a full buffer of capacity 64
whose `rx_overrun` holds the `uint32_t` maximum, an arriving byte takes the
counter to 0, not to the maximum. -/
theorem overrun_counter_not_saturating :
    (63 + 1) &&& (RX_BUF_SIZE - 1) = 0 ∧
    (UART0_IRQHandler_step RX_BUF_SIZE
      { rx_buffer := List.replicate 64 0, rx_head := 63, rx_tail := 0,
        rx_overrun := 4294967295, rx_total := 62 } 65).rx_overrun = 0 ∧
    (UART0_IRQHandler_step RX_BUF_SIZE
      { rx_buffer := List.replicate 64 0, rx_head := 63, rx_tail := 0,
        rx_overrun := 4294967295, rx_total := 62 } 65).rx_overrun ≠ 4294967295 := by
  refine ⟨?_, ?_, ?_⟩ <;> decide

/-- C17, amended: the overrun counter wraps.  When a byte arrives while
the buffer is full, `rx_overrun` (a `uint32_t`) goes from its maximum
`2^32 - 1` to 0 and from every smaller value up by exactly 1. -/
theorem overrun_counter_wraps (cap : Nat) (hcap : cap ≤ 65536) (s : RxState)
    (u0rbr : Nat) (hfull : (s.rx_head + 1) &&& (cap - 1) = s.rx_tail) :
    (s.rx_overrun = 4294967295 → (UART0_IRQHandler_step cap s u0rbr).rx_overrun = 0) ∧
    (s.rx_overrun < 4294967295 →
      (UART0_IRQHandler_step cap s u0rbr).rx_overrun = s.rx_overrun + 1) := by
  have hstep : (UART0_IRQHandler_step cap s u0rbr).rx_overrun =
      (s.rx_overrun + 1) % 4294967296 := by
    simp only [UART0_IRQHandler_step, mask_u16_id hcap]
    rw [if_neg (by simpa using hfull)]
  rw [hstep]
  constructor
  · intro h; rw [h]
  · intro h; exact Nat.mod_eq_of_lt (by omega)

/-- C17 amended, at capacity 64 on a full buffer: 41 overruns become 42. -/
theorem overrun_counter_wraps_witness :
    (UART0_IRQHandler_step RX_BUF_SIZE
      { rx_buffer := List.replicate 64 0, rx_head := 63, rx_tail := 0,
        rx_overrun := 41, rx_total := 104 } 65).rx_overrun = 41 + 1 :=
  (overrun_counter_wraps RX_BUF_SIZE (by decide)
    { rx_buffer := List.replicate 64 0, rx_head := 63, rx_tail := 0,
      rx_overrun := 41, rx_total := 104 } 65 (by decide)).2 (by decide)

theorem step_rx_total (cap : Nat) (s : RxState) (u0rbr : Nat) :
    (UART0_IRQHandler_step cap s u0rbr).rx_total = (s.rx_total + 1) % 4294967296 := by
  simp only [UART0_IRQHandler_step]
  split <;> rfl

theorem step_rx_overrun (cap : Nat) (s : RxState) (u0rbr : Nat) :
    (UART0_IRQHandler_step cap s u0rbr).rx_overrun =
      if ((s.rx_head + 1) &&& (cap - 1)) % 65536 ≠ s.rx_tail then s.rx_overrun
      else (s.rx_overrun + 1) % 4294967296 := by
  simp only [UART0_IRQHandler_step]
  split <;> rfl

theorem read_counters (cap : Nat) (s : RxState) :
    (uart_read cap s).2.rx_total = s.rx_total ∧
    (uart_read cap s).2.rx_overrun = s.rx_overrun := by
  simp only [uart_read]
  split <;> exact ⟨rfl, rfl⟩

theorem pushCount_append (ops1 ops2 : List Op) :
    pushCount (ops1 ++ ops2) = pushCount ops1 + pushCount ops2 := by
  induction ops1 with
  | nil => simp [pushCount]
  | cons op ops1 ih =>
    cases op with
    | push c =>
      show pushCount (Op.push c :: (ops1 ++ ops2)) = pushCount (Op.push c :: ops1) + _
      simp only [pushCount, ih]; omega
    | pop =>
      show pushCount (Op.pop :: (ops1 ++ ops2)) = pushCount (Op.pop :: ops1) + _
      simp only [pushCount, ih]
    | flush =>
      show pushCount (Op.flush :: (ops1 ++ ops2)) = pushCount (Op.flush :: ops1) + _
      simp only [pushCount, ih]

/-- While `rx_total` does not wrap it grows by the number of pushes. -/
theorem exec_rx_total (cap : Nat) (ops : List Op) :
    ∀ s : RxState, s.rx_total + pushCount ops < 4294967296 →
      (exec cap s ops).rx_total = s.rx_total + pushCount ops := by
  induction ops with
  | nil => intro s _; rfl
  | cons op ops ih =>
    intro s h
    cases op with
    | push c =>
      simp only [pushCount] at h
      have h1 : (UART0_IRQHandler_step cap s c).rx_total = s.rx_total + 1 := by
        rw [step_rx_total]; exact Nat.mod_eq_of_lt (by omega)
      simp only [exec, applyOp, pushCount]
      rw [ih _ (by rw [h1]; omega), h1]; omega
    | pop =>
      simp only [pushCount] at h
      simp only [exec, applyOp, pushCount]
      rw [ih _ (by rw [(read_counters cap s).1]; exact h), (read_counters cap s).1]
    | flush =>
      simp only [pushCount] at h
      simp only [exec, applyOp, pushCount]
      exact ih _ h

/-- While `rx_overrun` does not wrap, every push is either stored or
counted in it. -/
theorem exec_rx_overrun (cap : Nat) (ops : List Op) :
    ∀ s : RxState, s.rx_overrun + pushCount ops < 4294967296 →
      (exec cap s ops).rx_overrun + storedCount cap s ops =
        s.rx_overrun + pushCount ops := by
  induction ops with
  | nil => intro s _; rfl
  | cons op ops ih =>
    intro s h
    cases op with
    | push c =>
      simp only [pushCount] at h
      simp only [exec, storedCount, pushCount]
      have ho := step_rx_overrun cap s c
      by_cases hb : ((s.rx_head + 1) &&& (cap - 1)) % 65536 ≠ s.rx_tail
      · rw [if_pos hb] at ho ⊢
        have := ih (applyOp cap s (Op.push c)) (by simp only [applyOp]; rw [ho]; omega)
        simp only [applyOp] at this ⊢
        rw [ho] at this; omega
      · rw [if_neg hb] at ho ⊢
        rw [Nat.mod_eq_of_lt (by omega)] at ho
        have := ih (applyOp cap s (Op.push c)) (by simp only [applyOp]; rw [ho]; omega)
        simp only [applyOp] at this ⊢
        rw [ho] at this; omega
    | pop =>
      simp only [pushCount] at h
      simp only [exec, storedCount, pushCount]
      have := ih (applyOp cap s Op.pop)
        (by simp only [applyOp]; rw [(read_counters cap s).2]; exact h)
      simp only [applyOp] at this ⊢
      rw [(read_counters cap s).2] at this
      exact this
    | flush =>
      simp only [pushCount] at h
      simp only [exec, storedCount, pushCount]
      exact ih (applyOp cap s Op.flush) h

/-- C18 (total-received accounting).  Every arriving byte adds 1 to
`rx_total` (a `uint32_t` increment), stored or dropped; `uart_read` and
`uart_flush` leave it alone.  Hence after any operations with `N < 2^32`
pushes from the initial state `rx_total` is `N`, it is the number of
bytes stored plus `rx_overrun`, and it is at least what it was after any
initial part `ops1` of the operations. -/
theorem total_received_accounting (cap : Nat) (s : RxState) (u0rbr : Nat)
    (ops1 ops2 : List Op) (hN : pushCount (ops1 ++ ops2) < 4294967296) :
    (UART0_IRQHandler_step cap s u0rbr).rx_total = (s.rx_total + 1) % 4294967296 ∧
    (s.rx_total + 1 < 4294967296 →
      (UART0_IRQHandler_step cap s u0rbr).rx_total = s.rx_total + 1) ∧
    (uart_read cap s).2.rx_total = s.rx_total ∧
    (uart_flush s).rx_total = s.rx_total ∧
    (exec cap (init cap) (ops1 ++ ops2)).rx_total = pushCount (ops1 ++ ops2) ∧
    (exec cap (init cap) (ops1 ++ ops2)).rx_total =
      storedCount cap (init cap) (ops1 ++ ops2) +
        (exec cap (init cap) (ops1 ++ ops2)).rx_overrun ∧
    (exec cap (init cap) ops1).rx_total ≤ (exec cap (init cap) (ops1 ++ ops2)).rx_total := by
  have z1 : (init cap).rx_total = 0 := rfl
  have z2 : (init cap).rx_overrun = 0 := rfl
  have hsum := pushCount_append ops1 ops2
  have ht := exec_rx_total cap (ops1 ++ ops2) (init cap) (by rw [z1]; omega)
  have ho := exec_rx_overrun cap (ops1 ++ ops2) (init cap) (by rw [z2]; omega)
  have h1 := exec_rx_total cap ops1 (init cap) (by rw [z1]; omega)
  rw [z1, Nat.zero_add] at ht h1
  rw [z2, Nat.zero_add] at ho
  refine ⟨step_rx_total cap s u0rbr, ?_, (read_counters cap s).1, rfl, ht, ?_, ?_⟩
  · intro h; rw [step_rx_total]; exact Nat.mod_eq_of_lt h
  · omega
  · omega

/-- C18 at capacity 4: five pushes, four stored and one dropped. -/
theorem total_received_accounting_witness :
    (exec 4 (init 4)
      ([Op.push 1, Op.push 2, Op.push 3, Op.push 4] ++ [Op.pop, Op.flush, Op.push 5])).rx_total =
      pushCount ([Op.push 1, Op.push 2, Op.push 3, Op.push 4] ++ [Op.pop, Op.flush, Op.push 5]) ∧
    pushCount ([Op.push 1, Op.push 2, Op.push 3, Op.push 4] ++ [Op.pop, Op.flush, Op.push 5])
      = 5 :=
  ⟨(total_received_accounting 4 (init 4) 0
      [Op.push 1, Op.push 2, Op.push 3, Op.push 4] [Op.pop, Op.flush, Op.push 5]
      (by decide)).2.2.2.2.1,
    by decide⟩

/-- C19 (single-writer field ownership).  The handler's loop body never
changes `rx_tail`; `uart_read` and `uart_flush` never change `rx_head`,
`rx_buffer`, `rx_overrun` or `rx_total`, nor does any consumer call; and
`uart_available` changes nothing at all. -/
theorem single_writer_ownership (cap : Nat) (s : RxState) (u0rbr : Nat) (c : Call) :
    (UART0_IRQHandler_step cap s u0rbr).rx_tail = s.rx_tail ∧
    ((uart_read cap s).2.rx_head = s.rx_head ∧
      (uart_read cap s).2.rx_buffer = s.rx_buffer ∧
      (uart_read cap s).2.rx_overrun = s.rx_overrun ∧
      (uart_read cap s).2.rx_total = s.rx_total) ∧
    ((uart_flush s).rx_head = s.rx_head ∧
      (uart_flush s).rx_buffer = s.rx_buffer ∧
      (uart_flush s).rx_overrun = s.rx_overrun ∧
      (uart_flush s).rx_total = s.rx_total) ∧
    ((call cap s c).2.rx_head = s.rx_head ∧
      (call cap s c).2.rx_buffer = s.rx_buffer ∧
      (call cap s c).2.rx_overrun = s.rx_overrun ∧
      (call cap s c).2.rx_total = s.rx_total) ∧
    (call cap s Call.available).2 = s := by
  have hread : (uart_read cap s).2.rx_head = s.rx_head ∧
      (uart_read cap s).2.rx_buffer = s.rx_buffer ∧
      (uart_read cap s).2.rx_overrun = s.rx_overrun ∧
      (uart_read cap s).2.rx_total = s.rx_total := by
    simp only [uart_read]
    split <;> exact ⟨rfl, rfl, rfl, rfl⟩
  refine ⟨?_, hread, ⟨rfl, rfl, rfl, rfl⟩, ?_, rfl⟩
  · simp only [UART0_IRQHandler_step]
    split <;> rfl
  · cases c with
    | available => exact ⟨rfl, rfl, rfl, rfl⟩
    | read => exact hread
    | flush => exact ⟨rfl, rfl, rfl, rfl⟩

theorem masked_lt {cap : Nat} (hpos : 0 < cap) (x : Nat) :
    (x &&& (cap - 1)) % 65536 < cap := by
  have h1 := @Nat.and_le_right x (cap - 1)
  have h2 := Nat.mod_le (x &&& (cap - 1)) 65536
  omega

/-- Every operation keeps the array length and keeps both indices inside
the array. -/
theorem inbounds_applyOp {cap : Nat} (hpos : 0 < cap) (s : RxState) (op : Op)
    (h : s.rx_buffer.length = cap ∧ s.rx_head < cap ∧ s.rx_tail < cap) :
    (applyOp cap s op).rx_buffer.length = cap ∧ (applyOp cap s op).rx_head < cap ∧
      (applyOp cap s op).rx_tail < cap := by
  obtain ⟨hl, hh, ht⟩ := h
  cases op with
  | push c =>
    simp only [applyOp, UART0_IRQHandler_step]
    split
    · exact ⟨by simp [hl], masked_lt hpos _, ht⟩
    · exact ⟨hl, hh, ht⟩
  | pop =>
    simp only [applyOp, uart_read]
    split
    · exact ⟨hl, hh, ht⟩
    · exact ⟨hl, hh, masked_lt hpos _⟩
  | flush => exact ⟨hl, hh, hh⟩

theorem inbounds_exec {cap : Nat} (hpos : 0 < cap) (ops : List Op) :
    ∀ s : RxState, (s.rx_buffer.length = cap ∧ s.rx_head < cap ∧ s.rx_tail < cap) →
      (exec cap s ops).rx_buffer.length = cap ∧ (exec cap s ops).rx_head < cap ∧
        (exec cap s ops).rx_tail < cap := by
  induction ops with
  | nil => intro s h; exact h
  | cons op ops ih => intro s h; exact ih _ (inbounds_applyOp hpos s op h)

/-- C20 (in-bounds indexing, totality).  In every state reachable from
`rx_head = rx_tail = 0` by pushes, pops and flushes, `rx_head` and
`rx_tail` are below `RX_BUF_SIZE`, the length of `rx_buffer`; so the
accesses `rx_buffer[rx_head]` of the handler and `rx_buffer[rx_tail]` of
`uart_read` are inside the array: the checked operations never take their
error branch and give the value of the operation. -/
theorem indices_in_bounds (cap : Nat) (hpos : 0 < cap) (s : RxState)
    (hs : Reachable cap s) (u0rbr : Nat) :
    s.rx_head < cap ∧ s.rx_tail < cap ∧ s.rx_buffer.length = cap ∧
    UART0_IRQHandler_step_checked cap s u0rbr = some (UART0_IRQHandler_step cap s u0rbr) ∧
    uart_read_checked cap s = some (uart_read cap s) := by
  obtain ⟨ops, rfl⟩ := hs
  obtain ⟨hl, hh, ht⟩ := inbounds_exec hpos ops (init cap)
    ⟨by simp [init], hpos, hpos⟩
  refine ⟨hh, ht, hl, ?_, ?_⟩
  · rw [UART0_IRQHandler_step_checked, if_neg]
    rw [hl]; intro h; exact h.2 hh
  · rw [uart_read_checked, if_neg]
    rw [hl]; intro h; exact h.2 ht

/-- C20 at capacity 64, in a state reached by pushes, a pop and a flush. -/
theorem indices_in_bounds_witness :
    (exec RX_BUF_SIZE (init RX_BUF_SIZE)
      [Op.push 1, Op.push 2, Op.pop, Op.flush, Op.push 3]).rx_head < RX_BUF_SIZE ∧
    (exec RX_BUF_SIZE (init RX_BUF_SIZE)
      [Op.push 1, Op.push 2, Op.pop, Op.flush, Op.push 3]).rx_tail < RX_BUF_SIZE :=
  have h := indices_in_bounds RX_BUF_SIZE (by decide)
    (exec RX_BUF_SIZE (init RX_BUF_SIZE)
      [Op.push 1, Op.push 2, Op.pop, Op.flush, Op.push 3]) ⟨_, rfl⟩ 0
  ⟨h.1, h.2.1⟩

end BufferedUART

namespace TickClock

/-! ## Elapsed time across the wrap of the counter -/

theorem sub_u32_self (t : Nat) : sub_u32 t t = 0 := by
  simp [sub_u32]

theorem sub_u32_after (s k : Nat) (hs : s < 4294967296) (hk : k < 4294967296) :
    sub_u32 ((s + k) % 4294967296) s = k := by
  unfold sub_u32
  omega

theorem systick_source_eq (t : Nat) : systick_source t = (t + 1) % 4294967296 := rfl

theorem ct32b0_source_eq (t : Nat) : ct32b0_source t = (t + 1) % 4294967296 := by
  simp [ct32b0_source, CT32B0_IRQHandler]

/-- After `k` ticks of a source that adds 1 per tick the counter holds
`(s + k) mod 2^32`. -/
theorem iterate_ticks (source : Nat → Nat) (hsrc : ∀ t, source t = (t + 1) % 4294967296)
    (s : Nat) (hs : s < 4294967296) (k : Nat) :
    Nat.iterate source k s = (s + k) % 4294967296 := by
  induction k with
  | zero => simp [Nat.mod_eq_of_lt hs]
  | succ k ih =>
    rw [Function.iterate_succ_apply', ih, hsrc]
    omega

/-- The loop of `delay_ms`, entered `j` ticks after the snapshot with `d`
ticks still to wait, exits after `d` more ticks. -/
theorem loop_exits (source : Nat → Nat) (hsrc : ∀ t, source t = (t + 1) % 4294967296)
    (start ms : Nat) (hs : start < 4294967296) (hms : ms < 4294967296) :
    ∀ (d j fuel : Nat), j + d = ms → d < fuel →
      delay_ms_loop source start ms fuel ((start + j) % 4294967296) =
        some (d, (start + ms) % 4294967296) := by
  intro d
  induction d with
  | zero =>
    intro j fuel hj hf
    obtain ⟨f, rfl⟩ : ∃ f, fuel = f + 1 := ⟨fuel - 1, by omega⟩
    have hj' : j = ms := by omega
    subst hj'
    rw [delay_ms_loop, sub_u32_after start j hs hms, if_neg (by omega)]
  | succ d ih =>
    intro j fuel hj hf
    obtain ⟨f, rfl⟩ : ∃ f, fuel = f + 1 := ⟨fuel - 1, by omega⟩
    have hnext : source ((start + j) % 4294967296) = (start + (j + 1)) % 4294967296 := by
      rw [hsrc]; omega
    rw [delay_ms_loop, sub_u32_after start j hs (by omega), if_pos (by omega), hnext,
      ih (j + 1) f (by omega) (by omega)]

/-- The loop of `delay_ms` has not exited within `fuel` evaluations when
more than `fuel - 1` ticks are still to wait. -/
theorem loop_waits (source : Nat → Nat) (hsrc : ∀ t, source t = (t + 1) % 4294967296)
    (start ms : Nat) (hs : start < 4294967296) (hms : ms < 4294967296) :
    ∀ (fuel j : Nat), j + fuel ≤ ms →
      delay_ms_loop source start ms fuel ((start + j) % 4294967296) = none := by
  intro fuel
  induction fuel with
  | zero => intro j _; rfl
  | succ f ih =>
    intro j hj
    have hnext : source ((start + j) % 4294967296) = (start + (j + 1)) % 4294967296 := by
      rw [hsrc]; omega
    rw [delay_ms_loop, sub_u32_after start j hs (by omega), if_pos (by omega), hnext,
      ih (j + 1) (by omega)]

theorem loop_halted (start ms : Nat) (hms : 0 < ms) :
    ∀ fuel : Nat, delay_ms_loop halted_source start ms fuel start = none := by
  intro fuel
  induction fuel with
  | zero => rfl
  | succ f ih =>
    rw [delay_ms_loop, sub_u32_self, if_pos hms]
    simp only [halted_source]
    rw [ih]

/-! ## Contract of the tick service -/

/-- C13 (wraparound-safe elapsed time).  If `ms_ticks` held `s` and `k`
ticks (`k < 2^32`) have occurred since, by `SysTick_Handler` or by
`CT32B0_IRQHandler`, the `uint32_t` difference `ms_ticks - s` is `k`,
also when the counter has wrapped past zero.  Consequently
`timeout_elapsed(s, t)` is non-zero exactly when `k >= t`, the test
`get_ticks() - last_toggle >= 250` holds exactly when `k >= 250`, and the
loop condition of `delay_ms` holds exactly when `k < t`. -/
theorem elapsed_wraparound_safe (s k t : Nat) (hs : s < 4294967296)
    (hk : k < 4294967296) :
    sub_u32 (Nat.iterate SysTick_Handler k s) s = k ∧
    sub_u32 (Nat.iterate ct32b0_source k s) s = k ∧
    (timeout_elapsed (Nat.iterate SysTick_Handler k s) s t ≠ 0 ↔ t ≤ k) ∧
    (toggle_due (Nat.iterate ct32b0_source k s) s = true ↔ 250 ≤ k) ∧
    (sub_u32 (Nat.iterate SysTick_Handler k s) s < t ↔ k < t) := by
  have h1 : sub_u32 (Nat.iterate SysTick_Handler k s) s = k := by
    rw [iterate_ticks SysTick_Handler systick_source_eq s hs k]
    exact sub_u32_after s k hs hk
  have h2 : sub_u32 (Nat.iterate ct32b0_source k s) s = k := by
    rw [iterate_ticks ct32b0_source ct32b0_source_eq s hs k]
    exact sub_u32_after s k hs hk
  refine ⟨h1, h2, ?_, ?_, ?_⟩
  · simp only [timeout_elapsed, h1]
    split <;> simp_all
  · simp only [toggle_due, get_ticks, h2, decide_eq_true_eq, ge_iff_le]
  · rw [h1]

/-- C13 for a start three below the wrap: five ticks later the counter
reads 2 and the elapsed value is 5. -/
theorem elapsed_wraparound_safe_witness :
    Nat.iterate SysTick_Handler 5 4294967293 = 2 ∧
    sub_u32 (Nat.iterate SysTick_Handler 5 4294967293) 4294967293 = 5 :=
  ⟨by decide,
    (elapsed_wraparound_safe 4294967293 5 5 (by decide) (by decide)).1⟩

/-- C14 (tick increment).  One run of `SysTick_Handler`, or of
`CT32B0_IRQHandler` with the MR0 flag (bit 0 of `TMR32B0IR`) set, takes
`ms_ticks` to `(ms_ticks + 1) mod 2^32`: up by 1 below the maximum and
from `2^32 - 1` to 0.  `get_ticks` returns `ms_ticks` and leaves it as it
is. -/
theorem tick_increment (ms_ticks tmr32b0ir : Nat) (hflag : tmr32b0ir &&& 1 ≠ 0) :
    SysTick_Handler ms_ticks = (ms_ticks + 1) % 4294967296 ∧
    (CT32B0_IRQHandler tmr32b0ir ms_ticks).2 = (ms_ticks + 1) % 4294967296 ∧
    (ms_ticks < 4294967295 → SysTick_Handler ms_ticks = ms_ticks + 1 ∧
      (CT32B0_IRQHandler tmr32b0ir ms_ticks).2 = ms_ticks + 1) ∧
    SysTick_Handler 4294967295 = 0 ∧
    (CT32B0_IRQHandler tmr32b0ir 4294967295).2 = 0 ∧
    get_ticks ms_ticks = (ms_ticks, ms_ticks) := by
  have hct : ∀ t, (CT32B0_IRQHandler tmr32b0ir t).2 = (t + 1) % 4294967296 := by
    intro t
    simp only [CT32B0_IRQHandler, Nat.shiftLeft_zero]
    rw [if_pos hflag]
  refine ⟨rfl, hct _, ?_, rfl, ?_, rfl⟩
  · intro h
    rw [hct]
    exact ⟨Nat.mod_eq_of_lt (by omega), Nat.mod_eq_of_lt (by omega)⟩
  · rw [hct]

/-- C14 at the wrap, with the interrupt register reading 0x01. -/
theorem tick_increment_witness :
    SysTick_Handler 4294967295 = 0 ∧ (CT32B0_IRQHandler 1 4294967295).2 = 0 :=
  have h := tick_increment 4294967295 1 (by decide)
  ⟨h.2.2.2.1, h.2.2.2.2.1⟩

/-- C15 (exit of the blocking delay).  Against a tick source that adds 1
to `ms_ticks` per tick (SysTick or CT32B0), for every start value of the
counter, `delay_ms(ms)` exits after exactly `ms` ticks: the loop condition
holds at the first `ms` evaluations and fails at the next, where
`ms_ticks - start` is `ms`; it has not exited within `ms` evaluations; and
`delay_ms(0)` exits at the first evaluation without waiting for a tick. -/
theorem delay_exits_after_ms_ticks (start ms fuel : Nat) (hs : start < 4294967296)
    (hms : ms < 4294967296) (hfuel : ms < fuel) :
    delay_ms systick_source fuel start ms = some (ms, (start + ms) % 4294967296) ∧
    delay_ms ct32b0_source fuel start ms = some (ms, (start + ms) % 4294967296) ∧
    sub_u32 ((start + ms) % 4294967296) start = ms ∧
    (∀ f, f ≤ ms → delay_ms systick_source f start ms = none ∧
      delay_ms ct32b0_source f start ms = none) ∧
    delay_ms systick_source fuel start 0 = some (0, start) ∧
    delay_ms ct32b0_source fuel start 0 = some (0, start) := by
  have h0 : (start + 0) % 4294967296 = start := Nat.mod_eq_of_lt hs
  have e1 := loop_exits systick_source systick_source_eq start ms hs hms ms 0 fuel
    (by omega) hfuel
  have e2 := loop_exits ct32b0_source ct32b0_source_eq start ms hs hms ms 0 fuel
    (by omega) hfuel
  have z1 := loop_exits systick_source systick_source_eq start 0 hs (by omega) 0 0 fuel
    rfl (by omega)
  have z2 := loop_exits ct32b0_source ct32b0_source_eq start 0 hs (by omega) 0 0 fuel
    rfl (by omega)
  rw [h0] at e1 e2 z1 z2
  refine ⟨e1, e2, sub_u32_after start ms hs hms, ?_, z1, z2⟩
  intro f hf
  have w1 := loop_waits systick_source systick_source_eq start ms hs hms f 0 (by omega)
  have w2 := loop_waits ct32b0_source ct32b0_source_eq start ms hs hms f 0 (by omega)
  rw [h0] at w1 w2
  exact ⟨w1, w2⟩

/-- C15 for a start three below the wrap: a delay of 5 exits after 5
ticks with the counter at 2. -/
theorem delay_exits_after_ms_ticks_witness :
    delay_ms systick_source 6 4294967293 5 = some (5, 2) :=
  (delay_exits_after_ms_ticks 4294967293 5 6 (by decide) (by decide) (by decide)).1

/-- C16 (no ticks, no return).  If `ms_ticks` never changes after
`delay_ms(ms)` has taken its snapshot and `ms > 0`, the loop condition
`(ms_ticks - start) < ms` holds at every evaluation and the loop has not
exited after any number of them: `delay_ms` never returns. -/
theorem delay_blocks_without_ticks (ms_ticks ms : Nat) (hms : 0 < ms) (fuel : Nat) :
    sub_u32 ms_ticks ms_ticks < ms ∧
    delay_ms halted_source fuel ms_ticks ms = none := by
  refine ⟨by rw [sub_u32_self]; exact hms, ?_⟩
  exact loop_halted ms_ticks ms hms fuel

/-- C16 for a delay of 1 ms with the counter stuck at 7. -/
theorem delay_blocks_without_ticks_witness :
    delay_ms halted_source 1000 7 1 = none :=
  (delay_blocks_without_ticks 7 1 (by decide) 1000).2

end TickClock

namespace BufferedUART

/-! ## The main loop and the whole handler -/

theorem read_minus_one (cap : Nat) (s : RxState) (h : (uart_read cap s).1 = -1) :
    (uart_read cap s).2 = s := by
  unfold uart_read at h ⊢
  split
  · rfl
  · rw [if_neg ‹_›] at h
    simp only [Int.ofNat_eq_coe] at h
    omega

/-- C21 (bounded work per main-loop iteration).  One iteration of the main
loop calls `uart_read` once: the ring buffer after the iteration is the
one after that call, flushed when the byte read is 'f' or 'F' and not
otherwise touched, so at most one byte is removed by popping.  When the
call returns -1 the iteration dispatches no command: it transmits nothing
and leaves the ring buffer as it was. -/
theorem one_read_per_iteration (cap : Nat) (m : MainState) :
    (main_iteration cap m).rx =
      (if (uart_read cap m.rx).1 = 102 ∨ (uart_read cap m.rx).1 = 70 then
        uart_flush (uart_read cap m.rx).2
      else (uart_read cap m.rx).2) ∧
    ((uart_read cap m.rx).1 = -1 →
      dispatch cap (uart_read cap m.rx).1 (uart_read cap m.rx).2 m.tx = (m.rx, m.tx) ∧
      (main_iteration cap m).tx = m.tx ∧ (main_iteration cap m).rx = m.rx) := by
  constructor
  · simp only [main_iteration, dispatch]
    split_ifs <;> first | omega | rfl
  · intro h
    have hs := read_minus_one cap m.rx h
    have hd : dispatch cap (uart_read cap m.rx).1 (uart_read cap m.rx).2 m.tx = (m.rx, m.tx) := by
      rw [hs, h]
      simp [dispatch]
    refine ⟨hd, ?_, ?_⟩
    · simp only [main_iteration, hd]
    · simp only [main_iteration, hd]

/-- C21 at capacity 64: an iteration on the empty initial buffer. -/
theorem one_read_per_iteration_witness :
    (main_iteration RX_BUF_SIZE
      { rx := init RX_BUF_SIZE, tx := [62, 32], gpio3data := 15,
        loop_count := 0, last_report := 0 }).tx = [62, 32] ∧
    (main_iteration RX_BUF_SIZE
      { rx := init RX_BUF_SIZE, tx := [62, 32], gpio3data := 15,
        loop_count := 0, last_report := 0 }).rx = init RX_BUF_SIZE :=
  ((one_read_per_iteration RX_BUF_SIZE
    { rx := init RX_BUF_SIZE, tx := [62, 32], gpio3data := 15,
      loop_count := 0, last_report := 0 }).2 (by decide)).2

/-- C23, as the spec states it, fails: nothing rejects a capacity that is
not a power of two.  With capacity 6 the operations run (the checked
handler body never fails) and misbehave: of two pushes into the empty
buffer the second is dropped as an overrun, although five slots are usable
by the contract. -/
theorem bad_capacity_accepted :
    (∀ k : Nat, k ≤ 6 → (6 : Nat) ≠ 2 ^ k) ∧
    UART0_IRQHandler_step_checked 6 (init 6) 1 =
      some (UART0_IRQHandler_step 6 (init 6) 1) ∧
    UART0_IRQHandler_step_checked 6 (UART0_IRQHandler_step 6 (init 6) 1) 2 =
      some (exec 6 (init 6) [Op.push 1, Op.push 2]) ∧
    (exec 6 (init 6) [Op.push 1, Op.push 2]).rx_overrun = 1 ∧
    uart_available 6 (exec 6 (init 6) [Op.push 1, Op.push 2]) = 1 := by
  refine ⟨?_, ?_, ?_, ?_, ?_⟩ <;> decide

/-- C23, amended: the capacity `RX_BUF_SIZE` of the source is 64, a power
of two greater than 1, and that is all the source provides: the
operations make no test of the capacity, and at every capacity of at
least 1, power of two or not, they run in every reachable state without
failing. -/
theorem capacity_is_power_of_two (cap : Nat) (hpos : 0 < cap) (ops : List Op)
    (u0rbr : Nat) :
    RX_BUF_SIZE = 2 ^ 6 ∧ 1 < RX_BUF_SIZE ∧
    UART0_IRQHandler_step_checked cap (exec cap (init cap) ops) u0rbr =
      some (UART0_IRQHandler_step cap (exec cap (init cap) ops) u0rbr) ∧
    uart_read_checked cap (exec cap (init cap) ops) =
      some (uart_read cap (exec cap (init cap) ops)) := by
  obtain ⟨hl, hh, ht⟩ := inbounds_exec hpos ops (init cap) ⟨by simp [init], hpos, hpos⟩
  refine ⟨by decide, by decide, ?_, ?_⟩
  · rw [UART0_IRQHandler_step_checked, if_neg]
    rw [hl]; intro h; exact h.2 hh
  · rw [uart_read_checked, if_neg]
    rw [hl]; intro h; exact h.2 ht

/-- C23 amended, at the capacity 6, which is not a power of two. -/
theorem capacity_is_power_of_two_witness :
    RX_BUF_SIZE = 2 ^ 6 ∧ 1 < RX_BUF_SIZE ∧
    UART0_IRQHandler_step_checked 6 (exec 6 (init 6) [Op.push 1, Op.pop]) 2 =
      some (UART0_IRQHandler_step 6 (exec 6 (init 6) [Op.push 1, Op.pop]) 2) ∧
    uart_read_checked 6 (exec 6 (init 6) [Op.push 1, Op.pop]) =
      some (uart_read 6 (exec 6 (init 6) [Op.push 1, Op.pop])) :=
  capacity_is_power_of_two 6 (by decide) [Op.push 1, Op.pop] 2

theorem rx_loop_eq_exec (cap : Nat) (fifo : List Nat) :
    ∀ s : RxState, rx_loop cap s fifo = exec cap s (fifo.map Op.push) := by
  induction fifo with
  | nil => intro s; rfl
  | cons c fifo ih => intro s; exact ih _

theorem pushCount_map_push (cs : List Nat) : pushCount (cs.map Op.push) = cs.length := by
  induction cs with
  | nil => rfl
  | cons c cs ih => simp [pushCount, ih]

theorem rx_loop_rx_total (cap : Nat) (fifo : List Nat) :
    ∀ s : RxState, s.rx_total < 4294967296 →
      (rx_loop cap s fifo).rx_total = (s.rx_total + fifo.length) % 4294967296 := by
  induction fifo with
  | nil => intro s h; simp [rx_loop, Nat.mod_eq_of_lt h]
  | cons c fifo ih =>
    intro s h
    rw [rx_loop, ih _ (by rw [step_rx_total]; exact Nat.mod_lt _ (by norm_num)),
      step_rx_total, List.length_cons]
    omega

/-- C26 (the handler as a batched push).  One run of `UART0_IRQHandler`
leaves the ring buffer and its counters as they were when bit 0 of the
IIR value is set, or when the interrupt ID is neither 0x04 nor 0x0C;
otherwise it applies the single-byte push step, in arrival order, to the
`k` characters the receive FIFO yields, and `rx_total` grows by `k`
(as a `uint32_t`). -/
theorem handler_is_batched_push (cap : Nat) (iir : Nat) (fifo : List Nat) (s : RxState) :
    (iir &&& 1 ≠ 0 → UART0_IRQHandler cap iir fifo s = s) ∧
    (iir &&& 14 ≠ 4 → iir &&& 14 ≠ 12 → UART0_IRQHandler cap iir fifo s = s) ∧
    (iir &&& 1 = 0 → (iir &&& 14 = 4 ∨ iir &&& 14 = 12) →
      UART0_IRQHandler cap iir fifo s = exec cap s (fifo.map Op.push) ∧
      UART0_IRQHandler cap iir fifo s = fifo.foldl (UART0_IRQHandler_step cap) s ∧
      pushCount (fifo.map Op.push) = fifo.length ∧
      (s.rx_total < 4294967296 →
        (UART0_IRQHandler cap iir fifo s).rx_total =
          (s.rx_total + fifo.length) % 4294967296)) := by
  have hP : IIR_PEND = 1 := by decide
  have hM : IIR_ID_MASK = 14 := by decide
  have hR : IIR_RDA = 4 := by decide
  have hC : IIR_CTI = 12 := by decide
  refine ⟨?_, ?_, ?_⟩
  · intro h
    simp only [UART0_IRQHandler, hP]
    rw [if_pos h]
  · intro h1 h2
    simp only [UART0_IRQHandler, hP, hM, hR, hC]
    split
    · rfl
    · rw [if_neg (by rintro (h | h) <;> contradiction)]
  · intro h1 h2
    have hrun : UART0_IRQHandler cap iir fifo s = rx_loop cap s fifo := by
      simp only [UART0_IRQHandler, hP, hM, hR, hC]
      rw [if_neg (by simpa using h1), if_pos h2]
    refine ⟨by rw [hrun, rx_loop_eq_exec], ?_, ?_, ?_⟩
    · rw [hrun]
      clear hrun
      induction fifo generalizing s with
      | nil => rfl
      | cons c fifo ih => exact ih _
    · exact pushCount_map_push fifo
    · intro ht
      rw [hrun, rx_loop_rx_total cap fifo s ht]

/-- C26 at capacity 64: a Receive-Data-Available interrupt (IIR 0x04) with
three characters in the FIFO, and a run with nothing pending (IIR 0x01). -/
theorem handler_is_batched_push_witness :
    UART0_IRQHandler RX_BUF_SIZE 4 [72, 105, 33] (init RX_BUF_SIZE) =
      exec RX_BUF_SIZE (init RX_BUF_SIZE) ([72, 105, 33].map Op.push) ∧
    UART0_IRQHandler RX_BUF_SIZE 1 [72, 105, 33] (init RX_BUF_SIZE) = init RX_BUF_SIZE :=
  ⟨((handler_is_batched_push RX_BUF_SIZE 4 [72, 105, 33] (init RX_BUF_SIZE)).2.2
      (by decide) (Or.inl (by decide))).1,
    (handler_is_batched_push RX_BUF_SIZE 1 [72, 105, 33] (init RX_BUF_SIZE)).1 (by decide)⟩

/-! ## Reporting cadence and the buffer-fill LEDs -/

/-- The counters after `n` iterations: `loop_count` is `n`, and
`last_report` the last multiple of 100000 up to `n`, both as `uint32_t`. -/
theorem counters_after_eq (n : Nat) :
    counters_after n = (n % 4294967296, (n - n % 100000) % 4294967296) := by
  induction n with
  | zero => rfl
  | succ n ih =>
    simp only [counters_after, ih, report_step]
    split
    · next h =>
      simp only [Prod.mk.injEq]
      omega
    · next h =>
      simp only [Prod.mk.injEq]
      omega

/-- C27 (loop-count reporting cadence).  With `loop_count` and
`last_report` starting at 0, iteration `n` of the main loop (counted from
1, beyond `2^32` too) calls `update_buffer_leds` exactly when `n` is a
multiple of 100000; after it `loop_count` is `n mod 2^32` and
`last_report` the last multiple of 100000 up to `n`, mod `2^32`.  The
LED register and the counters of an iteration of `main` are those of this
step, whatever the ring buffer holds. -/
theorem report_cadence (n : Nat) (hn : 1 ≤ n) (cap : Nat) (m : MainState) :
    (update_in_iteration n = true ↔ n % 100000 = 0) ∧
    counters_after n = (n % 4294967296, (n - n % 100000) % 4294967296) ∧
    (main_iteration cap m).loop_count = (report_step m.loop_count m.last_report).1 ∧
    (main_iteration cap m).last_report = (report_step m.loop_count m.last_report).2.1 ∧
    ((report_step m.loop_count m.last_report).2.2 = false →
      (main_iteration cap m).gpio3data = m.gpio3data) ∧
    ((report_step m.loop_count m.last_report).2.2 = true →
      (main_iteration cap m).gpio3data =
        update_buffer_leds cap (main_iteration cap m).rx m.gpio3data) := by
  refine ⟨?_, counters_after_eq n, rfl, rfl, ?_, ?_⟩
  · obtain ⟨j, rfl⟩ : ∃ j, n = j + 1 := ⟨n - 1, by omega⟩
    simp only [update_in_iteration, Nat.add_sub_cancel, counters_after_eq, report_step]
    split
    · next h => simp only [true_iff]; omega
    · next h => simp only [Bool.false_eq_true, false_iff]; omega
  · intro h
    simp only [main_iteration, h, Bool.false_eq_true, if_false]
  · intro h
    simp only [main_iteration, h, if_true]

/-- C27 across the wrap of the 32-bit counter: iteration 4295000000, the
first multiple of 100000 beyond `2^32`, calls `update_buffer_leds`, with
`loop_count` at 32704. -/
theorem report_cadence_witness :
    update_in_iteration 4295000000 = true ∧
    counters_after 4295000000 = (32704, 32704) :=
  have h := report_cadence 4295000000 (by decide) RX_BUF_SIZE
    { rx := init RX_BUF_SIZE, tx := [], gpio3data := 15, loop_count := 0, last_report := 0 }
  ⟨h.1.2 (by decide), h.2.1⟩

/-- What `led_set` does to the LEDs 0 to 3: LED `led` is lit exactly when
`on` is not 0, the others stay as they are. -/
theorem led_on_led_set (led j on_ g : Nat) (hl : led ≤ 3) (hj : j ≤ 3) :
    led_on (led_set led on_ g) j = if j = led then decide (on_ ≠ 0) else led_on g j := by
  have hl' : ¬ led > 3 := by omega
  have h32 : Nat.testBit 4294967295 j = true := by
    rw [show (4294967295 : Nat) = 2 ^ 32 - 1 by norm_num, Nat.testBit_two_pow_sub_one]
    simp; omega
  simp only [led_set, led_on, if_neg hl', Nat.one_shiftLeft]
  by_cases ho : on_ ≠ 0
  · simp only [if_pos ho, Nat.testBit_and, Nat.testBit_xor, Nat.testBit_two_pow, h32]
    by_cases hjl : j = led
    · subst hjl; simp [ho]
    · have : ¬ led = j := fun h => hjl h.symm
      simp [hjl, this]
  · simp only [if_neg ho, Nat.testBit_or, Nat.testBit_two_pow]
    by_cases hjl : j = led
    · subst hjl; simp; simpa using ho
    · have : ¬ led = j := fun h => hjl h.symm
      simp [hjl, this]

theorem available_le (cap : Nat) (s : RxState) : uart_available cap s ≤ cap - 1 := by
  unfold uart_available
  have h1 := @Nat.and_le_right ((s.rx_head + 4294967296 - s.rx_tail) % 4294967296) (cap - 1)
  have h2 := Nat.mod_le
    (((s.rx_head + 4294967296 - s.rx_tail) % 4294967296) &&& (cap - 1)) 65536
  omega

/-- The LEDs after `update_buffer_leds`, in terms of the two values it
computes. -/
theorem leds_after_update (cap : Nat) (s : RxState) (g : Nat) :
    led_on (update_buffer_leds cap s g) 0 = decide (0 < uart_available cap s) ∧
    led_on (update_buffer_leds cap s g) 1 =
      decide (25 ≤ fill_percent cap (uart_available cap s)) ∧
    led_on (update_buffer_leds cap s g) 2 =
      decide (50 ≤ fill_percent cap (uart_available cap s)) ∧
    led_on (update_buffer_leds cap s g) 3 =
      decide (75 ≤ fill_percent cap (uart_available cap s)) := by
  simp only [update_buffer_leds]
  refine ⟨?_, ?_, ?_, ?_⟩
  · rw [led_on_led_set 3 0 _ _ (by decide) (by decide),
      led_on_led_set 2 0 _ _ (by decide) (by decide),
      led_on_led_set 1 0 _ _ (by decide) (by decide),
      led_on_led_set 0 0 _ _ (by decide) (by decide)]
    by_cases h : uart_available cap s > 0 <;> simp [h]
  · rw [led_on_led_set 3 1 _ _ (by decide) (by decide),
      led_on_led_set 2 1 _ _ (by decide) (by decide),
      led_on_led_set 1 1 _ _ (by decide) (by decide)]
    by_cases h : fill_percent cap (uart_available cap s) ≥ 25 <;> simp [h]
  · rw [led_on_led_set 3 2 _ _ (by decide) (by decide),
      led_on_led_set 2 2 _ _ (by decide) (by decide)]
    by_cases h : fill_percent cap (uart_available cap s) ≥ 50 <;> simp [h]
  · rw [led_on_led_set 3 3 _ _ (by decide) (by decide)]
    by_cases h : fill_percent cap (uart_available cap s) ≥ 75 <;> simp [h]

/-- C28 (buffer-fill LED thresholds).  At the capacity 64 of the source,
with `used = uart_available()` (always within 0..63): after
`update_buffer_leds` LED0 is lit iff `used > 0`; LED1, LED2 and LED3 are
lit iff the fill level `used / 63` exceeds 25%, 50% and 75%, which is
`used >= 16`, `used >= 32` and `used >= 48`; the computed percent is at
most 100; and a lit LED implies every lower-numbered LED lit. -/
theorem buffer_fill_leds (s : RxState) (g : Nat) :
    uart_available RX_BUF_SIZE s ≤ 63 ∧
    (led_on (update_buffer_leds RX_BUF_SIZE s g) 0 = true ↔
      0 < uart_available RX_BUF_SIZE s) ∧
    (led_on (update_buffer_leds RX_BUF_SIZE s g) 1 = true ↔
      25 * (RX_BUF_SIZE - 1) < 100 * uart_available RX_BUF_SIZE s) ∧
    (led_on (update_buffer_leds RX_BUF_SIZE s g) 1 = true ↔
      16 ≤ uart_available RX_BUF_SIZE s) ∧
    (led_on (update_buffer_leds RX_BUF_SIZE s g) 2 = true ↔
      50 * (RX_BUF_SIZE - 1) < 100 * uart_available RX_BUF_SIZE s) ∧
    (led_on (update_buffer_leds RX_BUF_SIZE s g) 2 = true ↔
      32 ≤ uart_available RX_BUF_SIZE s) ∧
    (led_on (update_buffer_leds RX_BUF_SIZE s g) 3 = true ↔
      75 * (RX_BUF_SIZE - 1) < 100 * uart_available RX_BUF_SIZE s) ∧
    (led_on (update_buffer_leds RX_BUF_SIZE s g) 3 = true ↔
      48 ≤ uart_available RX_BUF_SIZE s) ∧
    fill_percent RX_BUF_SIZE (uart_available RX_BUF_SIZE s) ≤ 100 ∧
    (led_on (update_buffer_leds RX_BUF_SIZE s g) 3 = true →
      led_on (update_buffer_leds RX_BUF_SIZE s g) 2 = true) ∧
    (led_on (update_buffer_leds RX_BUF_SIZE s g) 2 = true →
      led_on (update_buffer_leds RX_BUF_SIZE s g) 1 = true) ∧
    (led_on (update_buffer_leds RX_BUF_SIZE s g) 1 = true →
      led_on (update_buffer_leds RX_BUF_SIZE s g) 0 = true) := by
  obtain ⟨l0, l1, l2, l3⟩ := leds_after_update RX_BUF_SIZE s g
  have hu : uart_available RX_BUF_SIZE s ≤ 63 := available_le RX_BUF_SIZE s
  have hp : fill_percent RX_BUF_SIZE (uart_available RX_BUF_SIZE s) =
      uart_available RX_BUF_SIZE s * 100 / 63 := by
    have hlt : uart_available RX_BUF_SIZE s * 100 / 63 < 65536 := by omega
    exact Nat.mod_eq_of_lt hlt
  have h64 : RX_BUF_SIZE - 1 = 63 := rfl
  rw [l0, l1, l2, l3, hp, h64]
  simp only [decide_eq_true_eq]
  refine ⟨hu, ?_, ?_, ?_, ?_, ?_, ?_, ?_, ?_, ?_, ?_, ?_⟩ <;> first | trivial | omega

/-! ## The ring buffer as a bounded list queue -/

/-- The unread bytes of a state that holds `q` are `q`. -/
theorem contents_of_holds {cap k : Nat} (hcap : cap = 2 ^ k) (hk : k ≤ 16)
    {s : RxState} {q : List Nat} (h : Holds cap s q) : contents cap s = q := by
  unfold contents
  rw [holds_available hcap hk h]
  apply List.ext_getElem
  · simp
  · intro i h1 h2
    simp only [List.getElem_map, List.getElem_range]
    rw [h.slots i h2]
    simp [List.getD_eq_getElem?_getD, h2]

/-- The pops of any sequence of operations return what the list queue
returns. -/
theorem reads_of_holds {cap k : Nat} (hcap : cap = 2 ^ k) (hk : k ≤ 16) (ops : List Op) :
    ∀ {s : RxState} {q : List Nat}, Holds cap s q →
      reads cap s ops = queueReads cap q ops := by
  induction ops with
  | nil => intro s q _; cases q <;> rfl
  | cons op ops ih =>
    intro s q h
    cases op with
    | push c =>
      have := ih (holds_applyOp hcap hk h (Op.push c))
      cases q <;> simpa [reads, queueReads] using this
    | pop =>
      cases q with
      | nil =>
        have := ih (holds_applyOp hcap hk h Op.pop)
        simp only [queueOp, List.tail_nil] at this
        simp only [reads, queueReads, read_of_nil h]
        rw [this]
      | cons x q =>
        have := ih (holds_pop_cons hcap hk h)
        simp only [reads, queueReads, applyOp]
        rw [this, read_of_cons hcap hk h]
    | flush =>
      have := ih (holds_applyOp hcap hk h Op.flush)
      cases q <;> simpa [reads, queueReads] using this

/-- C29 (the ring buffer refines a bounded FIFO list).  With the content
of a reachable state read off as
`[rx_buffer[(rx_tail + i) mod cap] for i < uart_available()]`: a push of
the byte `c` makes the content `q` into `q ++ [c]` when `length q <
cap - 1` and leaves it otherwise; `uart_read` on `x :: rest` returns `x`
and leaves `rest`, on the empty content returns -1; `uart_flush` leaves
the empty content; so any sequence of pushes, pops and flushes acts, in
its state and in the values it returns, as on a list queue of capacity
`cap - 1`; and a push changes no slot of a byte still unread. -/
theorem ring_refines_queue (cap k : Nat) (hcap : cap = 2 ^ k) (hk : k ≤ 16)
    (s : RxState) (hs : Reachable cap s) (u0rbr : Nat) (ops : List Op) :
    contents cap (UART0_IRQHandler_step cap s u0rbr) =
      (if (contents cap s).length < cap - 1 then contents cap s ++ [u0rbr % 256]
        else contents cap s) ∧
    (∀ x rest, contents cap s = x :: rest →
      (uart_read cap s).1 = Int.ofNat x ∧ contents cap (uart_read cap s).2 = rest) ∧
    (contents cap s = [] →
      (uart_read cap s).1 = -1 ∧ contents cap (uart_read cap s).2 = []) ∧
    contents cap (uart_flush s) = [] ∧
    contents cap (exec cap s ops) = ops.foldl (queueOp cap) (contents cap s) ∧
    reads cap s ops = queueReads cap (contents cap s) ops ∧
    (∀ i, i < (contents cap s).length →
      (UART0_IRQHandler_step cap s u0rbr).rx_buffer.getD ((s.rx_tail + i) % cap) 0 =
        s.rx_buffer.getD ((s.rx_tail + i) % cap) 0) := by
  obtain ⟨q, h⟩ := holds_of_reachable hcap hk hs
  have hpos : 0 < cap := by subst hcap; positivity
  have hc := contents_of_holds hcap hk h
  have hpush := holds_applyOp hcap hk h (Op.push u0rbr)
  have hcp := contents_of_holds hcap hk hpush
  simp only [applyOp, queueOp] at hpush hcp
  rw [hc]
  refine ⟨?_, ?_, ?_, ?_, ?_, ?_, ?_⟩
  · rw [hcp]
    by_cases hr : q.length + 1 < cap
    · rw [if_pos hr, if_pos (by omega)]
    · rw [if_neg hr, if_neg (by omega)]
  · intro x rest hq
    subst hq
    exact ⟨by rw [read_of_cons hcap hk h],
      contents_of_holds hcap hk (holds_pop_cons hcap hk h)⟩
  · intro hq
    subst hq
    rw [read_of_nil h]
    exact ⟨rfl, hc⟩
  · exact contents_of_holds hcap hk (holds_flush h)
  · exact contents_of_holds hcap hk (holds_exec hcap hk ops h)
  · exact reads_of_holds hcap hk ops h
  · intro i hi
    have hstail : (UART0_IRQHandler_step cap s u0rbr).rx_tail = s.rx_tail := by
      simp only [UART0_IRQHandler_step]
      split <;> rfl
    by_cases hr : q.length + 1 < cap
    · rw [if_pos hr] at hpush
      have := hpush.slots i (by simp; omega)
      rw [hstail] at this
      rw [this, h.slots i hi]
      simp [List.getD_eq_getElem?_getD, List.getElem?_append_left hi]
    · rw [if_neg hr] at hpush
      have := hpush.slots i hi
      rw [hstail] at this
      rw [this, h.slots i hi]

/-- C29 at capacity 4, in a state whose content [20, 30, 40] wraps round
the end of the array. -/
theorem ring_refines_queue_witness :
    contents 4 (exec 4 (init 4)
      [Op.push 10, Op.push 20, Op.pop, Op.push 30, Op.push 40]) = [20, 30, 40] ∧
    contents 4 (UART0_IRQHandler_step 4 (exec 4 (init 4)
      [Op.push 10, Op.push 20, Op.pop, Op.push 30, Op.push 40]) 50) =
      (if (contents 4 (exec 4 (init 4)
          [Op.push 10, Op.push 20, Op.pop, Op.push 30, Op.push 40])).length < 4 - 1
        then contents 4 (exec 4 (init 4)
          [Op.push 10, Op.push 20, Op.pop, Op.push 30, Op.push 40]) ++ [50 % 256]
        else contents 4 (exec 4 (init 4)
          [Op.push 10, Op.push 20, Op.pop, Op.push 30, Op.push 40])) :=
  ⟨by decide,
    (ring_refines_queue 4 2 (by decide) (by decide)
      (exec 4 (init 4) [Op.push 10, Op.push 20, Op.pop, Op.push 30, Op.push 40])
      ⟨_, rfl⟩ 50 []).1⟩

/-! ## Telemetry number formatting -/

/-- The first loop of `print_number` writes the decimal digits of `n`,
least significant first, when they fit the room; the checked loop then
does not fail. -/
theorem fill_temp_digits :
    ∀ (room n : Nat) (temp : List Nat), n < 10 ^ room →
      fill_temp room n temp = temp ++ (Nat.digits 10 n).map (fun d => 48 + d) ∧
      fill_temp_checked room n temp =
        some (temp ++ (Nat.digits 10 n).map (fun d => 48 + d)) ∧
      (Nat.digits 10 n).length ≤ room := by
  intro room
  induction room with
  | zero =>
    intro n temp hn
    have h0 : n = 0 := by simpa using hn
    subst h0
    simp [fill_temp, fill_temp_checked]
  | succ room ih =>
    intro n temp hn
    by_cases hpos : n > 0
    · have hdiv : n / 10 < 10 ^ room := by
        rw [Nat.div_lt_iff_lt_mul (by norm_num)]
        rw [Nat.pow_succ] at hn
        exact hn
      obtain ⟨i1, i2, i3⟩ := ih (n / 10) (temp ++ [48 + n % 10]) hdiv
      have hd : Nat.digits 10 n = (n % 10) :: Nat.digits 10 (n / 10) :=
        Nat.digits_def' (by norm_num) hpos
      simp only [fill_temp, fill_temp_checked, if_pos hpos]
      rw [i1, i2, hd]
      simp only [List.map_cons, List.append_assoc, List.singleton_append, List.length_cons]
      exact ⟨trivial, trivial, by omega⟩
    · have h0 : n = 0 := by omega
      subst h0
      simp [fill_temp, fill_temp_checked]

theorem uart_puts_until_nul (l : List Nat) (hl : ∀ c ∈ l, c ≠ 0 ∧ c < 256) :
    ∀ tx : List Nat, uart_puts (l ++ [0]) tx = tx ++ l := by
  induction l with
  | nil => intro tx; simp [uart_puts]
  | cons c l ih =>
    intro tx
    have hc := hl c (by simp)
    show uart_puts (c :: (l ++ [0])) tx = tx ++ c :: l
    rw [uart_puts, if_pos hc.1, uart_putchar, ih (fun d hd => hl d (by simp [hd])),
      Nat.mod_eq_of_lt hc.2]
    simp

theorem parse_decimal_snoc (cs : List Nat) (c : Nat) :
    parse_decimal (cs ++ [c]) = 10 * parse_decimal cs + (c - 48) := by
  simp [parse_decimal, List.foldl_append]

theorem parse_decimal_digits (l : List Nat) :
    parse_decimal (l.reverse.map (fun d => 48 + d)) = Nat.ofDigits 10 l := by
  induction l with
  | nil => rfl
  | cons d l ih =>
    rw [List.reverse_cons, List.map_append, List.map_singleton, parse_decimal_snoc, ih,
      Nat.ofDigits_cons]
    simp only [Nat.cast_id, Nat.add_sub_cancel_left]
    omega

/-- C30 (telemetry number formatting).  For every 32-bit unsigned `n`,
`print_number(n)` stays inside its arrays `temp[12]` and `buf[12]` (the
final NUL included) and transmits exactly the decimal representation of
`n`, most significant digit first: between 1 and 10 digit characters,
'0' alone for `n = 0` and no leading '0' otherwise, whose value read as a
decimal number is `n`. -/
theorem print_number_decimal (n : Nat) (hn : n < 4294967296) (tx : List Nat) :
    print_number_checked n tx = some (print_number n tx) ∧
    print_number n tx = tx ++ print_number n [] ∧
    (n = 0 → print_number n [] = [48]) ∧
    (n ≠ 0 → print_number n [] = (Nat.digits 10 n).reverse.map (fun d => 48 + d)) ∧
    parse_decimal (print_number n []) = n ∧
    (∀ c ∈ print_number n [], 48 ≤ c ∧ c ≤ 57) ∧
    1 ≤ (print_number n []).length ∧ (print_number n []).length ≤ 10 ∧
    (n ≠ 0 → (print_number n []).head? ≠ some 48) := by
  by_cases h0 : n = 0
  · subst h0
    refine ⟨rfl, rfl, fun _ => rfl, fun h => absurd rfl h, rfl, ?_, ?_, ?_, fun h => absurd rfl h⟩
    · intro c hc
      have : c = 48 := by simpa [print_number, uart_putchar] using hc
      omega
    · decide
    · decide
  · have hlen10 := (fill_temp_digits 10 n [] (by omega)).2.2
    obtain ⟨f1, f2, _⟩ := fill_temp_digits 12 n [] (by omega)
    rw [List.nil_append] at f1 f2
    have hdig : ∀ d ∈ Nat.digits 10 n, d < 10 := fun d hd => Nat.digits_lt_base (by norm_num) hd
    have hchars : ∀ c ∈ (Nat.digits 10 n).reverse.map (fun d => 48 + d), c ≠ 0 ∧ c < 256 := by
      intro c hc
      simp only [List.mem_map, List.mem_reverse] at hc
      obtain ⟨d, hd, rfl⟩ := hc
      have := hdig d hd
      omega
    have hrev : ((Nat.digits 10 n).map (fun d => 48 + d)).reverse =
        (Nat.digits 10 n).reverse.map (fun d => 48 + d) := by
      rw [List.map_reverse]
    have hout : ∀ t : List Nat,
        print_number n t = t ++ (Nat.digits 10 n).reverse.map (fun d => 48 + d) := by
      intro t
      simp only [print_number, if_neg h0, f1, hrev]
      exact uart_puts_until_nul _ hchars t
    have hne : Nat.digits 10 n ≠ [] := Nat.digits_ne_nil_iff_ne_zero.mpr h0
    refine ⟨?_, ?_, fun h => absurd h h0, fun _ => ?_, ?_, ?_, ?_, ?_, fun _ => ?_⟩
    · simp only [print_number_checked, if_neg h0, f2, List.length_map]
      rw [if_pos (by omega), hout, hrev, uart_puts_until_nul _ hchars]
    · rw [hout tx, hout [], List.nil_append]
    · rw [hout [], List.nil_append]
    · rw [hout [], List.nil_append, parse_decimal_digits, Nat.ofDigits_digits]
    · rw [hout [], List.nil_append]
      intro c hc
      simp only [List.mem_map, List.mem_reverse] at hc
      obtain ⟨d, hd, rfl⟩ := hc
      have := hdig d hd
      omega
    · rw [hout [], List.nil_append, List.length_map, List.length_reverse]
      exact List.length_pos.mpr hne
    · rw [hout [], List.nil_append, List.length_map, List.length_reverse]
      exact hlen10
    · rw [hout [], List.nil_append, List.head?_map, List.head?_reverse,
        List.getLast?_eq_getLast _ hne]
      have := Nat.getLast_digit_ne_zero 10 h0
      simp only [Option.map_some', ne_eq, Option.some.injEq]
      omega

/-- C30 for the largest 32-bit value. -/
theorem print_number_decimal_witness :
    print_number_checked 4294967295 [62] = some (print_number 4294967295 [62]) ∧
    print_number 4294967295 [62] = [62, 52, 50, 57, 52, 57, 54, 55, 50, 57, 53] ∧
    parse_decimal (print_number 4294967295 []) = 4294967295 :=
  have h := print_number_decimal 4294967295 (by decide) [62]
  ⟨h.1, by decide, h.2.2.2.2.1⟩

/-! ## Mask against modulo -/

/-- A positive number that is not a power of two lies strictly between
two neighbouring powers of two. -/
theorem between_pows {n : Nat} (hpos : 0 < n) (hnp : ∀ j, n ≠ 2 ^ j) :
    ∃ k, 2 ^ k < n ∧ n < 2 ^ (k + 1) := by
  have h1 : n < 2 ^ (Nat.size n) := Nat.lt_size_self n
  have hs : 0 < Nat.size n := Nat.size_pos.mpr hpos
  obtain ⟨k, hk⟩ : ∃ k, Nat.size n = k + 1 := ⟨Nat.size n - 1, by omega⟩
  have h2 : 2 ^ k ≤ n := Nat.lt_size.mp (by omega)
  exact ⟨k, lt_of_le_of_ne h2 (fun h => hnp k h.symm), by rw [← hk]; exact h1⟩

theorem testBit_top {m k : Nat} (h1 : 2 ^ k ≤ m) (h2 : m < 2 ^ (k + 1)) :
    m.testBit k = true := by
  rw [Nat.testBit_to_div_mod]
  have : m / 2 ^ k = 1 := by
    apply Nat.div_eq_of_lt_le
    · simpa using h1
    · rw [Nat.pow_succ] at h2; omega
  simp [this]

/-- For a capacity that is not a power of two the mask keeps a bit of the
capacity itself. -/
theorem and_pred_ne_zero {n : Nat} (hpos : 0 < n) (hnp : ∀ j, n ≠ 2 ^ j) :
    n &&& (n - 1) ≠ 0 := by
  obtain ⟨k, h1, h2⟩ := between_pows hpos hnp
  intro h0
  have hb : (n &&& (n - 1)).testBit k = true := by
    rw [Nat.testBit_and, testBit_top (le_of_lt h1) h2, testBit_top (by omega) (by omega)]
    rfl
  rw [h0, Nat.zero_testBit] at hb
  exact Bool.false_ne_true hb

/-- The distance from a capacity to the next power of two has no bit in
common with the mask. -/
theorem gap_and_pred_eq_zero {n k : Nat} (h1 : 2 ^ k < n) (h2 : n < 2 ^ (k + 1)) :
    (2 ^ (k + 1) - n) &&& (n - 1) = 0 := by
  apply Nat.eq_of_testBit_eq
  intro i
  have hx : n - 1 < 2 ^ (k + 1) := by omega
  have hn : 2 ^ (k + 1) - n = 2 ^ (k + 1) - ((n - 1) + 1) := by omega
  rw [Nat.testBit_and, Nat.zero_testBit, hn, Nat.testBit_two_pow_sub_succ hx]
  cases (n - 1).testBit i <;> simp

/-- C25 (mask-based wraparound equals modulo).  For a power-of-two
capacity `cap` (up to 65536) and indices inside the array,
`(h + 1) & (cap - 1)` is `(h + 1) mod cap`, and `uart_available`, which
evaluates `(rx_head - rx_tail) & (cap - 1)` on the promoted `int`s and
converts to `uint16_t`, gives the mathematical `(h - t) mod cap`.  For a
capacity `bad` that is not a power of two both equalities fail at some
indices inside the array. -/
theorem mask_equals_modulo (cap k : Nat) (hcap : cap = 2 ^ k) (hk : k ≤ 16)
    (s : RxState) (hh : s.rx_head < cap) (ht : s.rx_tail < cap)
    (bad : Nat) (hpos : 0 < bad) (hle : bad ≤ 65536) (hnp : ∀ j, bad ≠ 2 ^ j) :
    (s.rx_head + 1) &&& (cap - 1) = (s.rx_head + 1) % cap ∧
    (uart_available cap s : Int) = ((s.rx_head : Int) - (s.rx_tail : Int)) % (cap : Int) ∧
    (∃ h, h < bad ∧ (h + 1) &&& (bad - 1) ≠ (h + 1) % bad) ∧
    (∃ b : RxState, b.rx_head < bad ∧ b.rx_tail < bad ∧
      (uart_available bad b : Int) ≠ ((b.rx_head : Int) - (b.rx_tail : Int)) % (bad : Int)) := by
  refine ⟨?_, ?_, ?_, ?_⟩
  · subst hcap
    exact Nat.and_pow_two_sub_one_eq_mod _ _
  · rw [available_eq_mod hcap hk s ht]
    have e : ((s.rx_head + cap - s.rx_tail : Nat) : Int) =
        ((s.rx_head : Int) - (s.rx_tail : Int)) + (cap : Int) := by omega
    rw [Int.natCast_mod, e, Int.add_emod_self]
  · refine ⟨bad - 1, by omega, ?_⟩
    rw [Nat.sub_add_cancel hpos, Nat.mod_self]
    exact and_pred_ne_zero hpos hnp
  · obtain ⟨j, h1, h2⟩ := between_pows hpos hnp
    have hz := gap_and_pred_eq_zero h1 h2
    have hd0 : 0 < 2 ^ (j + 1) - bad := by omega
    have hdlt : 2 ^ (j + 1) - bad < bad := by rw [Nat.pow_succ] at h2 ⊢; omega
    refine ⟨{ rx_buffer := List.replicate bad 0, rx_head := 2 ^ (j + 1) - bad, rx_tail := 0,
              rx_overrun := 0, rx_total := 0 }, hdlt, hpos, ?_⟩
    have hav : uart_available bad
        { rx_buffer := List.replicate bad 0, rx_head := 2 ^ (j + 1) - bad, rx_tail := 0,
          rx_overrun := 0, rx_total := 0 } = 0 := by
      simp only [uart_available, Nat.sub_zero]
      rw [Nat.add_mod_right, Nat.mod_eq_of_lt (show 2 ^ (j + 1) - bad < 4294967296 by omega),
        hz]
    rw [hav]
    simp only [Nat.cast_zero, sub_zero, ne_eq]
    rw [Int.emod_eq_of_lt (by omega) (by omega)]
    omega

/-- C25 at the capacity 64 of the source with head 2 and tail 60, and at
the capacity 6, which is not a power of two. -/
theorem mask_equals_modulo_witness :
    uart_available RX_BUF_SIZE
      { rx_buffer := List.replicate 64 0, rx_head := 2, rx_tail := 60,
        rx_overrun := 0, rx_total := 0 } = 6 ∧
    ((uart_available RX_BUF_SIZE
      { rx_buffer := List.replicate 64 0, rx_head := 2, rx_tail := 60,
        rx_overrun := 0, rx_total := 0 } : Nat) : Int) = ((2 : Int) - 60) % 64 ∧
    (5 + 1) &&& (6 - 1) ≠ (5 + 1) % 6 :=
  ⟨by decide,
    (mask_equals_modulo RX_BUF_SIZE 6 (by decide) (by decide)
      { rx_buffer := List.replicate 64 0, rx_head := 2, rx_tail := 60,
        rx_overrun := 0, rx_total := 0 } (by decide) (by decide)
      6 (by decide) (by decide)
      (by intro j; rcases Nat.lt_or_ge j 3 with h | h
          · interval_cases j <;> decide
          · have : 2 ^ 3 ≤ 2 ^ j := Nat.pow_le_pow_right (by decide) h
            omega)).2.1,
    by decide⟩

/-! ## Preemption of the consumer by the receive interrupt -/

theorem step_rx_tail (cap : Nat) (s : RxState) (c : Nat) :
    (UART0_IRQHandler_step cap s c).rx_tail = s.rx_tail := by
  simp only [UART0_IRQHandler_step]
  split <;> rfl

theorem rx_loop_rx_tail (cap : Nat) (cs : List Nat) :
    ∀ s : RxState, (rx_loop cap s cs).rx_tail = s.rx_tail := by
  induction cs with
  | nil => intro s; rfl
  | cons c cs ih => intro s; rw [rx_loop, ih, step_rx_tail]

/-- A run of the handler on a state that holds `x :: q` leaves a state that
holds `x` followed by some bytes: the oldest unread byte stays. -/
theorem holds_rx_loop_cons {cap k : Nat} (hcap : cap = 2 ^ k) (hk : k ≤ 16)
    (cs : List Nat) :
    ∀ {s : RxState} {x : Nat} {q : List Nat}, Holds cap s (x :: q) →
      ∃ r, Holds cap (rx_loop cap s cs) (x :: r) := by
  induction cs with
  | nil => intro s x q h; exact ⟨q, h⟩
  | cons c cs ih =>
    intro s x q h
    rw [rx_loop]
    by_cases hroom : (x :: q).length + 1 < cap
    · exact ih (holds_push_room hcap hk h hroom c)
    · exact ih (holds_push_full hcap hk h (by have := h.room; omega) c)

theorem holds_rx_loop {cap k : Nat} (hcap : cap = 2 ^ k) (hk : k ≤ 16)
    {s : RxState} {q : List Nat} (h : Holds cap s q) (cs : List Nat) :
    ∃ r, Holds cap (rx_loop cap s cs) r := by
  rw [rx_loop_eq_exec]
  exact ⟨_, holds_exec hcap hk _ h⟩

/-- While every push fits, the handler does the same to a state whatever
`rx_tail` is. -/
theorem rx_loop_retail {cap k : Nat} (hcap : cap = 2 ^ k) (hk : k ≤ 16) (cs : List Nat) :
    ∀ (s : RxState) (t : Nat) (q q2 : List Nat), Holds cap s q →
      Holds cap { s with rx_tail := t } q2 →
      q.length + cs.length ≤ cap - 1 → q2.length + cs.length ≤ cap - 1 →
      rx_loop cap { s with rx_tail := t } cs = { rx_loop cap s cs with rx_tail := t } := by
  induction cs with
  | nil => intro s t q q2 _ _ _ _; rfl
  | cons c cs ih =>
    intro s t q q2 h h2 hl hl2
    simp only [List.length_cons] at hl hl2
    have hpos : 0 < cap := by subst hcap; positivity
    have e1 := step_of_room hcap hk h (show q.length + 1 < cap by omega) c
    have e2 := step_of_room hcap hk h2 (show q2.length + 1 < cap by omega) c
    have e3 : UART0_IRQHandler_step cap { s with rx_tail := t } c =
        { UART0_IRQHandler_step cap s c with rx_tail := t } := by
      rw [e1, e2]
    have h1' := holds_push_room hcap hk h (show q.length + 1 < cap by omega) c
    have h2' := holds_push_room hcap hk h2 (show q2.length + 1 < cap by omega) c
    rw [e3] at h2'
    rw [rx_loop, rx_loop, e3]
    exact ih _ t _ _ h1' h2' (by simp; omega) (by simp; omega)

/-- One interrupt inside a `uart_read` on a non-empty buffer: the call
ends as if the handler had run before it. -/
theorem read_preempted_nonempty {cap k : Nat} (hcap : cap = 2 ^ k) (hk : k ≤ 16)
    {s : RxState} {x : Nat} {q : List Nat} (h : Holds cap s (x :: q))
    (head_first : Bool) (gap : Nat) (h1 : 1 ≤ gap) (h5 : gap ≤ 5) (cs : List Nat) :
    uart_read_preempted cap head_first gap cs s = uart_read cap (rx_loop cap s cs) := by
  obtain ⟨r, hr⟩ := holds_rx_loop_cons hcap hk cs h
  have ht : (rx_loop cap s cs).rx_tail = s.rx_tail := rx_loop_rx_tail cap cs s
  have hne : s.rx_head ≠ s.rx_tail := by
    rw [Ne, holds_head_eq_tail_iff h]; simp
  have hne1 : (rx_loop cap s cs).rx_head ≠ s.rx_tail := by
    rw [← ht, Ne, holds_head_eq_tail_iff hr]; simp
  have hx : s.rx_buffer.getD s.rx_tail 0 = x := by
    have := h.slots 0 (by simp)
    rwa [Nat.add_zero, Nat.mod_eq_of_lt h.tail_lt] at this
  have hx1 : (rx_loop cap s cs).rx_buffer.getD s.rx_tail 0 = x := by
    have := hr.slots 0 (by simp)
    rwa [Nat.add_zero, ht, Nat.mod_eq_of_lt h.tail_lt] at this
  have hrhs : uart_read cap (rx_loop cap s cs) =
      (Int.ofNat x, { rx_loop cap s cs with
        rx_tail := ((s.rx_tail + 1) &&& (cap - 1)) % 65536 }) := by
    simp only [uart_read, ht, if_neg hne1, hx1]
  rw [hrhs]
  have hy : s.rx_buffer[s.rx_tail]?.getD 0 = x := by
    rw [← List.getD_eq_getElem?_getD]; exact hx
  have hy1 : (rx_loop cap s cs).rx_buffer[s.rx_tail]?.getD 0 = x := by
    rw [← List.getD_eq_getElem?_getD]; exact hx1
  interval_cases gap <;> cases head_first <;>
    simp [uart_read_preempted, irq_at, ht, hne, hne1, hy, hy1]

/-- One interrupt inside a `uart_read` on an empty buffer: the call ends
as if the handler had run before it, or as if it had run after it. -/
theorem read_preempted_empty {cap : Nat} {s : RxState} (h : Holds cap s [])
    (head_first : Bool) (gap : Nat) (h1 : 1 ≤ gap) (h5 : gap ≤ 5) (cs : List Nat) :
    uart_read_preempted cap head_first gap cs s = uart_read cap (rx_loop cap s cs) ∨
    uart_read_preempted cap head_first gap cs s =
      ((uart_read cap s).1, rx_loop cap (uart_read cap s).2 cs) := by
  have ht : (rx_loop cap s cs).rx_tail = s.rx_tail := rx_loop_rx_tail cap cs s
  have he : s.rx_head = s.rx_tail := (holds_head_eq_tail_iff h).2 rfl
  have hafter : ((uart_read cap s).1, rx_loop cap (uart_read cap s).2 cs) =
      (-1, rx_loop cap s cs) := by
    rw [read_of_nil h]
  rw [hafter]
  by_cases hg : gap = 1
  · subst hg
    cases head_first
    · left
      simp [uart_read_preempted, irq_at, uart_read, ht]
    · right
      simp [uart_read_preempted, irq_at, ht, he]
  · right
    have hg1 : ¬ gap = 1 := hg
    cases head_first <;> simp [uart_read_preempted, irq_at, hg1, he]

/-- C24, as the spec states it, fails for `uart_flush`.  At capacity 4
with two unread bytes, a handler run pushing 7 and 8 between the read of
`rx_head` and the write of `rx_tail` stores 7 and drops 8 (the old
`rx_tail` still stands): one unread byte and one overrun remain.  Had the
pushes come before the flush nothing would be unread; had they come after
it both bytes would be stored and no overrun counted.  The same happens at
capacity 64 with 62 unread bytes. -/
theorem flush_preemption_not_serial :
    uart_flush_preempted 4 [7, 8] (exec 4 (init 4) [Op.push 1, Op.push 2]) =
      { rx_buffer := [1, 2, 7, 0], rx_head := 3, rx_tail := 2, rx_overrun := 1,
        rx_total := 4 } ∧
    uart_flush (rx_loop 4 (exec 4 (init 4) [Op.push 1, Op.push 2]) [7, 8]) =
      { rx_buffer := [1, 2, 7, 0], rx_head := 3, rx_tail := 3, rx_overrun := 1,
        rx_total := 4 } ∧
    rx_loop 4 (uart_flush (exec 4 (init 4) [Op.push 1, Op.push 2])) [7, 8] =
      { rx_buffer := [1, 2, 7, 8], rx_head := 0, rx_tail := 2, rx_overrun := 0,
        rx_total := 4 } ∧
    uart_flush_preempted RX_BUF_SIZE [7, 8]
        { rx_buffer := List.replicate 64 0, rx_head := 62, rx_tail := 0,
          rx_overrun := 0, rx_total := 62 } ≠
      uart_flush (rx_loop RX_BUF_SIZE
        { rx_buffer := List.replicate 64 0, rx_head := 62, rx_tail := 0,
          rx_overrun := 0, rx_total := 62 } [7, 8]) ∧
    uart_flush_preempted RX_BUF_SIZE [7, 8]
        { rx_buffer := List.replicate 64 0, rx_head := 62, rx_tail := 0,
          rx_overrun := 0, rx_total := 62 } ≠
      rx_loop RX_BUF_SIZE (uart_flush
        { rx_buffer := List.replicate 64 0, rx_head := 62, rx_tail := 0,
          rx_overrun := 0, rx_total := 62 }) [7, 8] := by
  refine ⟨?_, ?_, ?_, ?_, ?_⟩ <;> decide

/-- C24, amended.  For a power-of-two capacity and a reachable state, with
one run of the receive handler (pushing the characters `cs`) between two
memory accesses of a consumer operation:
`uart_read` and `uart_available` return the value and leave the state they
would if the pushes had all come before the call or all after it;
`uart_flush` leaves the state of the pushes made before it, except that
`rx_tail` is the `rx_head` it read, so the bytes the handler stored stay
unread, and this is the state of the pushes made after the flush whenever
the unread bytes and the pushes together fit the `cap - 1` slots;
a preempting push never writes the slot `rx_buffer[rx_tail]` of a
non-empty buffer; and the storing branch of the handler writes the byte at
`rx_buffer[rx_head]` first and advances `rx_head` second. -/
theorem preemption_safety (cap k : Nat) (hcap : cap = 2 ^ k) (hk : k ≤ 16)
    (s : RxState) (hs : Reachable cap s) (head_first : Bool)
    (gap : Nat) (h1 : 1 ≤ gap) (h5 : gap ≤ 5) (cs : List Nat) (c : Nat) :
    (uart_read_preempted cap head_first gap cs s = uart_read cap (rx_loop cap s cs) ∨
      uart_read_preempted cap head_first gap cs s =
        ((uart_read cap s).1, rx_loop cap (uart_read cap s).2 cs)) ∧
    (uart_available_preempted cap head_first cs s =
        (uart_available cap (rx_loop cap s cs), rx_loop cap s cs) ∨
      uart_available_preempted cap head_first cs s =
        (uart_available cap s, rx_loop cap s cs)) ∧
    uart_flush_preempted cap cs s = { rx_loop cap s cs with rx_tail := s.rx_head } ∧
    (uart_available cap s + cs.length ≤ cap - 1 →
      uart_flush_preempted cap cs s = rx_loop cap (uart_flush s) cs) ∧
    (s.rx_head ≠ s.rx_tail →
      (rx_loop cap s cs).rx_buffer.getD s.rx_tail 0 = s.rx_buffer.getD s.rx_tail 0) ∧
    ((s.rx_head + 1) % cap ≠ s.rx_tail →
      UART0_IRQHandler_step cap s c =
        { (store_then_advance s (c % 256) ((s.rx_head + 1) % cap)).2 with
          rx_total := (s.rx_total + 1) % 4294967296 } ∧
      (store_then_advance s (c % 256) ((s.rx_head + 1) % cap)).1.rx_head = s.rx_head ∧
      (store_then_advance s (c % 256) ((s.rx_head + 1) % cap)).1.rx_buffer =
        s.rx_buffer.set s.rx_head (c % 256)) := by
  obtain ⟨q, h⟩ := holds_of_reachable hcap hk hs
  have ht : (rx_loop cap s cs).rx_tail = s.rx_tail := rx_loop_rx_tail cap cs s
  refine ⟨?_, ?_, rfl, ?_, ?_, ?_⟩
  · cases q with
    | nil => exact read_preempted_empty h head_first gap h1 h5 cs
    | cons x q => exact Or.inl (read_preempted_nonempty hcap hk h head_first gap h1 h5 cs)
  · cases head_first
    · left
      simp [uart_available_preempted, uart_available, ht]
    · right
      simp [uart_available_preempted, uart_available, ht]
  · intro hfit
    rw [holds_available hcap hk h] at hfit
    have := rx_loop_retail hcap hk cs s s.rx_head q [] h (holds_flush h) hfit
      (by simp only [List.length_nil]; omega)
    exact this.symm
  · intro hne
    cases q with
    | nil => exact absurd ((holds_head_eq_tail_iff h).2 rfl) hne
    | cons x q =>
      obtain ⟨r, hr⟩ := holds_rx_loop_cons hcap hk cs h
      have e1 := hr.slots 0 (by simp)
      have e2 := h.slots 0 (by simp)
      rw [Nat.add_zero, ht, Nat.mod_eq_of_lt h.tail_lt] at e1
      rw [Nat.add_zero, Nat.mod_eq_of_lt h.tail_lt] at e2
      rw [e1, e2]
      rfl
  · intro hne
    refine ⟨?_, rfl, rfl⟩
    simp only [UART0_IRQHandler_step, mask_u16 hcap hk, store_then_advance]
    rw [if_pos hne]

/-- C24 amended, at capacity 4: an interrupt pushing one byte in gap 4 of
a `uart_read` on a buffer that holds 1 and 2. -/
theorem preemption_safety_witness :
    uart_read_preempted 4 true 4 [9] (exec 4 (init 4) [Op.push 1, Op.push 2]) =
      (1, { rx_buffer := [1, 2, 9, 0], rx_head := 3, rx_tail := 1, rx_overrun := 0,
            rx_total := 3 }) ∧
    (uart_read_preempted 4 true 4 [9] (exec 4 (init 4) [Op.push 1, Op.push 2]) =
        uart_read 4 (rx_loop 4 (exec 4 (init 4) [Op.push 1, Op.push 2]) [9]) ∨
      uart_read_preempted 4 true 4 [9] (exec 4 (init 4) [Op.push 1, Op.push 2]) =
        ((uart_read 4 (exec 4 (init 4) [Op.push 1, Op.push 2])).1,
          rx_loop 4 (uart_read 4 (exec 4 (init 4) [Op.push 1, Op.push 2])).2 [9])) :=
  ⟨by decide,
    (preemption_safety 4 2 (by decide) (by decide)
      (exec 4 (init 4) [Op.push 1, Op.push 2]) ⟨_, rfl⟩ true 4 (by decide) (by decide)
      [9] 0).1⟩

end BufferedUART

namespace BufferedUART

/-! ## What the command dispatch transmits -/

/-- A C string literal without NUL inside, of 8-bit characters, is sent
whole by `uart_puts`. -/
theorem uart_puts_text (str : String) (h : ∀ c ∈ text str, c ≠ 0 ∧ c < 256)
    (tx : List Nat) : uart_puts (cstr str) tx = tx ++ text str :=
  uart_puts_until_nul (text str) h tx

/-- For a number that fits its arrays `print_number` sends the decimal
representation. -/
theorem print_number_sends_decimal (n : Nat) (hn : n < 4294967296) (tx : List Nat) :
    print_number n tx = tx ++ decimal n := by
  by_cases h0 : n = 0
  · subst h0
    rfl
  · obtain ⟨f1, _, _⟩ := fill_temp_digits 12 n [] (by omega)
    rw [List.nil_append] at f1
    have hchars : ∀ c ∈ (Nat.digits 10 n).reverse.map (fun d => 48 + d), c ≠ 0 ∧ c < 256 := by
      intro c hc
      simp only [List.mem_map, List.mem_reverse] at hc
      obtain ⟨d, hd, rfl⟩ := hc
      have := Nat.digits_lt_base (show 1 < 10 by norm_num) hd
      omega
    have hrev : ((Nat.digits 10 n).map (fun d => 48 + d)).reverse =
        (Nat.digits 10 n).reverse.map (fun d => 48 + d) := by
      rw [List.map_reverse]
    simp only [print_number, decimal, if_neg h0, f1, hrev]
    exact uart_puts_until_nul _ hchars tx

/-- The characters `print_status` sends: the fixed texts of the report
with the six numbers in decimal. -/
theorem print_status_sends (cap : Nat) (s : RxState) (tx : List Nat)
    (hcap : cap < 4294967296) (hhead : s.rx_head < 4294967296)
    (htail : s.rx_tail < 4294967296) (htotal : s.rx_total < 4294967296)
    (hover : s.rx_overrun < 4294967296) :
    print_status cap s tx =
      tx ++ text "\r\n=== Buffer Status ===\r\n" ++
        text "Buffer size: " ++ decimal cap ++ text " bytes\r\n" ++
        text "Data in buffer: " ++ decimal (uart_available cap s) ++ text " bytes\r\n" ++
        text "Total received: " ++ decimal s.rx_total ++ text " chars\r\n" ++
        text "Overrun count: " ++ decimal s.rx_overrun ++ text "\r\n" ++
        text "Head index: " ++ decimal s.rx_head ++
        text ", Tail index: " ++ decimal s.rx_tail ++ text "\r\n\r\n" := by
  have hav : uart_available cap s < 4294967296 := by
    have : uart_available cap s < 65536 := Nat.mod_lt _ (by norm_num)
    omega
  have p1 := uart_puts_text "\r\n=== Buffer Status ===\r\n" (by decide)
  have p2 := uart_puts_text "Buffer size: " (by decide)
  have p3 := uart_puts_text " bytes\r\n" (by decide)
  have p4 := uart_puts_text "Data in buffer: " (by decide)
  have p5 := uart_puts_text "Total received: " (by decide)
  have p6 := uart_puts_text " chars\r\n" (by decide)
  have p7 := uart_puts_text "Overrun count: " (by decide)
  have p8 := uart_puts_text "\r\n" (by decide)
  have p9 := uart_puts_text "Head index: " (by decide)
  have p10 := uart_puts_text ", Tail index: " (by decide)
  have p11 := uart_puts_text "\r\n\r\n" (by decide)
  simp only [print_status, p1, p2, p3, p4, p5, p6, p7, p8, p9, p10, p11,
    print_number_sends_decimal cap hcap, print_number_sends_decimal _ hav,
    print_number_sends_decimal _ htotal, print_number_sends_decimal _ hover,
    print_number_sends_decimal _ hhead, print_number_sends_decimal _ htail]

theorem read_value_tail (cap : Nat) (s : RxState) (h : (uart_read cap s).1 ≠ -1) :
    (uart_read cap s).2.rx_head = s.rx_head ∧ (uart_read cap s).2.rx_tail < 65536 := by
  unfold uart_read at h ⊢
  split
  · rw [if_pos ‹_›] at h
    exact absurd rfl h
  · exact ⟨rfl, Nat.mod_lt _ (by norm_num)⟩

/-- C22 (command dispatch).  In one iteration with no interrupt, on the
byte `c` returned by `uart_read`: for 'f' or 'F' the buffer is flushed
after the pop, so `uart_available()` is 0 afterwards, and the notice
"\r\n[Buffer flushed]\r\n> " is sent; for 's' or 'S' the status report is
sent, followed by the prompt "> ", and the ring buffer is the one after the
pop: the report is the fixed texts of `print_status` with, in decimal,
the capacity, the number of unread bytes after the pop, `rx_total`,
`rx_overrun`, `rx_head` and the `rx_tail` after the pop (the counters and
indices being values of their C types); for '\r' only the prompt
"\r\n> " is sent; for every other byte except 't' and 'T' exactly that
byte is sent and the ring buffer is the one after the pop. -/
theorem command_dispatch (cap : Nat) (m : MainState) :
    ((uart_read cap m.rx).1 = 102 ∨ (uart_read cap m.rx).1 = 70 →
      (main_iteration cap m).rx = uart_flush (uart_read cap m.rx).2 ∧
      uart_available cap (main_iteration cap m).rx = 0 ∧
      (main_iteration cap m).tx = m.tx ++ text "\r\n[Buffer flushed]\r\n> ") ∧
    ((uart_read cap m.rx).1 = 115 ∨ (uart_read cap m.rx).1 = 83 →
      (main_iteration cap m).rx = (uart_read cap m.rx).2 ∧
      (main_iteration cap m).tx =
        uart_puts (cstr "> ") (print_status cap (uart_read cap m.rx).2 m.tx)) ∧
    ((uart_read cap m.rx).1 = 115 ∨ (uart_read cap m.rx).1 = 83 →
      cap < 4294967296 → m.rx.rx_head < 4294967296 →
      m.rx.rx_total < 4294967296 → m.rx.rx_overrun < 4294967296 →
      (main_iteration cap m).tx =
        m.tx ++ text "\r\n=== Buffer Status ===\r\n" ++
          text "Buffer size: " ++ decimal cap ++ text " bytes\r\n" ++
          text "Data in buffer: " ++
            decimal (uart_available cap (uart_read cap m.rx).2) ++ text " bytes\r\n" ++
          text "Total received: " ++ decimal m.rx.rx_total ++ text " chars\r\n" ++
          text "Overrun count: " ++ decimal m.rx.rx_overrun ++ text "\r\n" ++
          text "Head index: " ++ decimal m.rx.rx_head ++
          text ", Tail index: " ++ decimal (uart_read cap m.rx).2.rx_tail ++
          text "\r\n\r\n" ++ text "> ") ∧
    ((uart_read cap m.rx).1 = 13 →
      (main_iteration cap m).rx = (uart_read cap m.rx).2 ∧
      (main_iteration cap m).tx = m.tx ++ [13, 10, 62, 32]) ∧
    (0 ≤ (uart_read cap m.rx).1 → (uart_read cap m.rx).1 ≤ 255 →
      (uart_read cap m.rx).1 ≠ 115 → (uart_read cap m.rx).1 ≠ 83 →
      (uart_read cap m.rx).1 ≠ 102 → (uart_read cap m.rx).1 ≠ 70 →
      (uart_read cap m.rx).1 ≠ 116 → (uart_read cap m.rx).1 ≠ 84 →
      (uart_read cap m.rx).1 ≠ 13 →
      (main_iteration cap m).rx = (uart_read cap m.rx).2 ∧
      (main_iteration cap m).tx = m.tx ++ [((uart_read cap m.rx).1).toNat]) := by
  have hstatus : (uart_read cap m.rx).1 = 115 ∨ (uart_read cap m.rx).1 = 83 →
      (main_iteration cap m).tx =
        uart_puts (cstr "> ") (print_status cap (uart_read cap m.rx).2 m.tx) := by
    intro h
    simp only [main_iteration, dispatch]
    split_ifs <;> first | omega | rfl
  refine ⟨?_, ?_, ?_, ?_, ?_⟩
  · intro h
    have hrx : (main_iteration cap m).rx = uart_flush (uart_read cap m.rx).2 := by
      simp only [main_iteration, dispatch]
      split_ifs <;> first | omega | rfl
    refine ⟨hrx, ?_, ?_⟩
    · rw [hrx]
      simp [uart_available, uart_flush]
    · have hp := uart_puts_text "\r\n[Buffer flushed]\r\n> " (by decide) m.tx
      rw [← hp]
      simp only [main_iteration, dispatch]
      split_ifs <;> first | omega | rfl
  · intro h
    refine ⟨?_, hstatus h⟩
    simp only [main_iteration, dispatch]
    split_ifs <;> first | omega | rfl
  · intro h hcap hhead htotal hover
    have hne : (uart_read cap m.rx).1 ≠ -1 := by omega
    obtain ⟨e1, e2⟩ := read_value_tail cap m.rx hne
    obtain ⟨e3, e4⟩ := read_counters cap m.rx
    rw [hstatus h,
      print_status_sends cap (uart_read cap m.rx).2 m.tx hcap (by rw [e1]; exact hhead)
        (by omega) (by rw [e3]; exact htotal) (by rw [e4]; exact hover),
      uart_puts_text "> " (by decide), e1, e3, e4]
  · intro h
    constructor
    · simp only [main_iteration, dispatch]
      split_ifs <;> first | omega | rfl
    · have hp : ∀ tx : List Nat, uart_puts (cstr "\r\n> ") tx = tx ++ [13, 10, 62, 32] := by
        intro tx
        have : cstr "\r\n> " = [13, 10, 62, 32, 0] := by decide
        simp [this, uart_puts, uart_putchar]
      simp only [main_iteration, dispatch, hp]
      split_ifs <;> first | omega | rfl
  · intro h0 h255 h1 h2 h3 h4 h5 h6 h7
    constructor
    · simp only [main_iteration, dispatch]
      split_ifs <;> first | omega | rfl
    · have hb : ((uart_read cap m.rx).1).toNat % 256 = ((uart_read cap m.rx).1).toNat := by
        omega
      simp only [main_iteration, dispatch, uart_putchar, hb]
      split_ifs <;> first | omega | rfl

set_option maxRecDepth 100000 in
/-- C22 at capacity 64: the byte 'f' flushes a buffer that holds three
more bytes; and the byte 's', read from a buffer that holds one more
byte, sends the status report with the numbers 64, 1, 2, 0, 2 and 1. -/
theorem command_dispatch_witness :
    uart_available RX_BUF_SIZE
      (main_iteration RX_BUF_SIZE
        { rx := exec RX_BUF_SIZE (init RX_BUF_SIZE)
            [Op.push 102, Op.push 1, Op.push 2, Op.push 3],
          tx := [], gpio3data := 15, loop_count := 0, last_report := 0 }).rx = 0 ∧
    (main_iteration RX_BUF_SIZE
        { rx := exec RX_BUF_SIZE (init RX_BUF_SIZE) [Op.push 115, Op.push 3],
          tx := [], gpio3data := 15, loop_count := 0, last_report := 0 }).tx =
      [] ++ text "\r\n=== Buffer Status ===\r\n" ++
        text "Buffer size: " ++ decimal 64 ++ text " bytes\r\n" ++
        text "Data in buffer: " ++ decimal 1 ++ text " bytes\r\n" ++
        text "Total received: " ++ decimal 2 ++ text " chars\r\n" ++
        text "Overrun count: " ++ decimal 0 ++ text "\r\n" ++
        text "Head index: " ++ decimal 2 ++
        text ", Tail index: " ++ decimal 1 ++
        text "\r\n\r\n" ++ text "> " ∧
    (main_iteration RX_BUF_SIZE
        { rx := exec RX_BUF_SIZE (init RX_BUF_SIZE) [Op.push 115, Op.push 3],
          tx := [], gpio3data := 15, loop_count := 0, last_report := 0 }).tx =
      text ("\r\n=== Buffer Status ===\r\nBuffer size: 64 bytes\r\n" ++
        "Data in buffer: 1 bytes\r\nTotal received: 2 chars\r\n" ++
        "Overrun count: 0\r\nHead index: 2, Tail index: 1\r\n\r\n> ") :=
  ⟨((command_dispatch RX_BUF_SIZE
      { rx := exec RX_BUF_SIZE (init RX_BUF_SIZE)
          [Op.push 102, Op.push 1, Op.push 2, Op.push 3],
        tx := [], gpio3data := 15, loop_count := 0, last_report := 0 }).1
      (Or.inl (by decide))).2.1,
    (command_dispatch RX_BUF_SIZE
      { rx := exec RX_BUF_SIZE (init RX_BUF_SIZE) [Op.push 115, Op.push 3],
        tx := [], gpio3data := 15, loop_count := 0, last_report := 0 }).2.2.1
      (Or.inl (by decide)) (by decide) (by decide) (by decide) (by decide),
    by decide⟩

end BufferedUART
